import Mathlib

/-!
Shallow embedding of the engine-state core
(`crates/nu-protocol/src/engine/engine_state.rs`): identity tables, scope
frames with visibility overlays, the permanent `EngineState`, and the
transactional `StateWorkingSet` / `StateDelta` pair, together with proofs of
the specified properties (ID stability, scope/merge behaviour, resolution
order, visibility, span coverage and file round-trips).

Modelling conventions:
* `Vec<_>` / `im::Vector<_>` become `List _` in the same order (index 0 is the
  oldest entry; the back of a stack is the last element).
* `HashMap<Vec<u8>, _>` becomes an extensional map `Bytes → Option _`; only
  lookup, insert, remove and key-wise extension are used by the source.
* operations that `panic!`/`expect` return `Option` (`none` = the source
  panics); operations whose source silently ignores a case keep that
  behaviour (e.g. `StateDelta::exit_scope` is `Vec::pop`, a no-op when empty).
* `String::from_utf8_lossy` at the `get_file_source` boundary is not modelled;
  the function returns the located byte slice that the source would decode.
* the `ctrlc : Option<Arc<AtomicBool>>` field and the `miette` impl are
  concurrency/IO surface and are not part of the embedding.
-/

/-- Byte strings (`Vec<u8>` in the source). -/
abbrev Bytes := List Nat

abbrev DeclId := Nat
abbrev VarId := Nat
abbrev BlockId := Nat

/-- UTF-8 encoding of one code point. -/
def charUTF8 (c : Char) : Bytes :=
  let n := c.toNat
  if n < 0x80 then [n]
  else if n < 0x800 then [0xC0 + n / 0x40, 0x80 + n % 0x40]
  else if n < 0x10000 then
    [0xE0 + n / 0x1000, 0x80 + n / 0x40 % 0x40, 0x80 + n % 0x40]
  else
    [0xF0 + n / 0x40000, 0x80 + n / 0x1000 % 0x40, 0x80 + n / 0x40 % 0x40,
      0x80 + n % 0x40]

/-- UTF-8 bytes of a string (`str::as_bytes().to_vec()`). -/
def strBytes (s : String) : Bytes := (s.data.map charUTF8).flatten

/-- Half-open span of global byte offsets; the field `stop` embeds the source
field `end` (a Lean keyword). -/
structure Span where
  start : Nat
  stop : Nat
deriving DecidableEq, Repr

/-- Variable type descriptor (the source `Type` enum, opaque at this layer). -/
inductive NuType where
  | unknown
  | int
  | str
deriving DecidableEq, Repr

/-- A declaration: the source trait object `Box<dyn Command>`, abstracted to
the data this layer consults (`name()`, plus an opaque remainder so distinct
commands stay distinguishable). -/
structure Command where
  name : String
  usage : String := ""
deriving DecidableEq, Repr

/-- A parsed code block (opaque AST node at this layer). -/
structure Block where
  tag : Nat := 0
deriving DecidableEq, Repr

/-- Name-keyed map (`HashMap<Vec<u8>, _>`), modelled extensionally. -/
def NMap (α : Type) : Type := Bytes → Option α

/-- The empty map. -/
def NMap.empty {α : Type} : NMap α := fun _ => none

/-- `HashMap::get`. -/
def NMap.find? {α : Type} (m : NMap α) (k : Bytes) : Option α := m k

/-- `HashMap::insert` (the previous value, which the source sometimes
returns, is read off with `find?` before inserting). -/
def NMap.insert {α : Type} (m : NMap α) (k : Bytes) (v : α) : NMap α :=
  fun q => if q = k then some v else m q

/-- `HashMap::remove`. -/
def NMap.erase {α : Type} (m : NMap α) (k : Bytes) : NMap α :=
  fun q => if q = k then none else m q

/-- Inserting every binding of `hi` into `lo` (`hi` wins on conflict); this is
the key-wise effect of the insertion loops in `merge_delta`. -/
def NMap.union {α : Type} (hi lo : NMap α) : NMap α :=
  fun q => match hi q with
    | some v => some v
    | none => lo q

/-- Visibility overlay: tells whether a decl id is visible
(absent = visible by default). -/
structure Visibility where
  ids : DeclId → Option Bool

/-- `Visibility::new`. -/
def Visibility.new : Visibility := ⟨fun _ => none⟩

/-- `Visibility::is_id_visible`: by default it is visible. -/
def Visibility.is_id_visible (v : Visibility) (id : DeclId) : Bool :=
  (v.ids id).getD true

/-- `Visibility::hide_id`. -/
def Visibility.hide_id (v : Visibility) (id : DeclId) : Visibility :=
  ⟨fun q => if q = id then some false else v.ids q⟩

/-- `Visibility::use_id`. -/
def Visibility.use_id (v : Visibility) (id : DeclId) : Visibility :=
  ⟨fun q => if q = id then some true else v.ids q⟩

/-- `Visibility::merge_with`: overwrite own values with the other. -/
def Visibility.merge_with (v other : Visibility) : Visibility :=
  ⟨fun q => match other.ids q with
    | some b => some b
    | none => v.ids q⟩

/-- `Visibility::append`: take new values from other but keep own values. -/
def Visibility.append (v other : Visibility) : Visibility :=
  ⟨fun q => match v.ids q with
    | some b => some b
    | none => other.ids q⟩

/-- One lexical scope frame. -/
structure ScopeFrame where
  vars : NMap VarId
  /-- temporary storage for predeclarations -/
  predecls : NMap DeclId
  decls : NMap DeclId
  aliases : NMap (List Span)
  modules : NMap BlockId
  visibility : Visibility

/-- `ScopeFrame::new`. -/
def ScopeFrame.new : ScopeFrame :=
  { vars := NMap.empty
    predecls := NMap.empty
    decls := NMap.empty
    aliases := NMap.empty
    modules := NMap.empty
    visibility := Visibility.new }

/-- `ScopeFrame::get_var`. -/
def ScopeFrame.get_var (f : ScopeFrame) (var_name : Bytes) : Option VarId :=
  f.vars.find? var_name

/-- The back of a stack kept as a list (`Vec::last` / `im::Vector::back`). -/
def topFrame (l : List ScopeFrame) : Option ScopeFrame := l.reverse.head?

/-- Apply `f` to the last element of a list, the effect of a successful
`last_mut()`/`back_mut()`; the empty list is returned unchanged (callers that
`expect` a frame are guarded by hypotheses or `Option` at their call sites). -/
def modifyLast {α : Type} (f : α → α) (l : List α) : List α :=
  (match l.reverse with
    | [] => []
    | a :: r => f a :: r).reverse

/-- The core global engine state (committed identity tables plus the
permanent scope stack). -/
structure EngineState where
  files : List (String × Nat × Nat)
  file_contents : List (Bytes × Nat × Nat)
  vars : List NuType
  decls : List Command
  blocks : List Block
  scope : List ScopeFrame

/-- A delta between the current global state and a possible future one. -/
structure StateDelta where
  files : List (String × Nat × Nat)
  file_contents : List (Bytes × Nat × Nat)
  vars : List NuType
  decls : List Command
  blocks : List Block
  scope : List ScopeFrame

/-- A working set: an immutable permanent snapshot plus an owned delta. -/
structure StateWorkingSet where
  permanent_state : EngineState
  delta : StateDelta

/-- `EngineState::new`: four reserved variable ids and one root scope frame. -/
def EngineState.new : EngineState :=
  { files := []
    file_contents := []
    vars := [NuType.unknown, NuType.unknown, NuType.unknown, NuType.unknown]
    decls := []
    blocks := []
    scope := [ScopeFrame.new] }

def EngineState.num_files (s : EngineState) : Nat := s.files.length
def EngineState.num_vars (s : EngineState) : Nat := s.vars.length
def EngineState.num_decls (s : EngineState) : Nat := s.decls.length
def EngineState.num_blocks (s : EngineState) : Nat := s.blocks.length

/-- Folding the first delta frame into the top permanent frame: decl, var,
alias and module bindings are inserted (delta wins), the visibility overlay is
merged with delta-wins semantics; `predecls` is not transferred. -/
def mergeScopeFrame (first last : ScopeFrame) : ScopeFrame :=
  { last with
    decls := NMap.union first.decls last.decls
    vars := NMap.union first.vars last.vars
    aliases := NMap.union first.aliases last.aliases
    modules := NMap.union first.modules last.modules
    visibility := last.visibility.merge_with first.visibility }

/-- `EngineState::merge_delta`. The identity tables are extended first; then,
when the permanent scope has a back frame, `delta.scope.remove(0)` takes the
first delta frame (the source panics there when the delta scope is empty,
returned as `none`) and folds it into the back frame. Any further delta
frames are dropped. -/
def EngineState.merge_delta (s : EngineState) (delta : StateDelta) :
    Option EngineState :=
  let s' : EngineState :=
    { s with
      files := s.files ++ delta.files
      file_contents := s.file_contents ++ delta.file_contents
      decls := s.decls ++ delta.decls
      vars := s.vars ++ delta.vars
      blocks := s.blocks ++ delta.blocks }
  match topFrame s'.scope with
  | none => some s'
  | some _ =>
    match delta.scope with
    | [] => none
    | first :: _ =>
      some { s' with scope := modifyLast (fun last => mergeScopeFrame first last) s'.scope }

/-- The permanent-frame walk of `find_decl`: frames are given innermost-first,
visibility is accumulated with `append` before each check, and an invisible
match is skipped. -/
def findDeclPerm (name : Bytes) (vis : Visibility) :
    List ScopeFrame → Option DeclId
  | [] => none
  | f :: rest =>
    let vis' := vis.append f.visibility
    match f.decls.find? name with
    | some id =>
      if vis'.is_id_visible id then some id else findDeclPerm name vis' rest
    | none => findDeclPerm name vis' rest

/-- `EngineState::find_decl`. -/
def EngineState.find_decl (s : EngineState) (name : Bytes) : Option DeclId :=
  findDeclPerm name Visibility.new s.scope.reverse

/-- Containment test of `get_span_contents`:
`span.start >= *start && span.end <= *finish`. -/
def containsSpan (e : Bytes × Nat × Nat) (sp : Span) : Bool :=
  decide (e.2.1 ≤ sp.start) && decide (sp.stop ≤ e.2.2)

/-- The slice `&contents[(span.start - start)..(span.end - start)]`. -/
def sliceOf (e : Bytes × Nat × Nat) (sp : Span) : Bytes :=
  (e.1.drop (sp.start - e.2.1)).take (sp.stop - sp.start)

/-- Scan a file-contents table for the first entry containing the span. -/
def findContents (sp : Span) : List (Bytes × Nat × Nat) → Option Bytes
  | [] => none
  | e :: rest =>
    if containsSpan e sp then some (sliceOf e sp) else findContents sp rest

/-- `EngineState::get_span_contents` (`none` = the source panics). -/
def EngineState.get_span_contents (s : EngineState) (sp : Span) : Option Bytes :=
  findContents sp s.file_contents

/-- `EngineState::get_var` (`none` = the source panics). -/
def EngineState.get_var (s : EngineState) (var_id : VarId) : Option NuType :=
  s.vars[var_id]?

/-- `EngineState::get_decl` (`none` = the source panics). -/
def EngineState.get_decl (s : EngineState) (decl_id : DeclId) : Option Command :=
  s.decls[decl_id]?

/-- `EngineState::get_block` (`none` = the source panics). -/
def EngineState.get_block (s : EngineState) (block_id : BlockId) : Option Block :=
  s.blocks[block_id]?

/-- End cursor of a file-contents table: the `end` of the last entry, with a
default for the empty table (`file_contents.last()` in the source). -/
def nextCursor (dflt : Nat) : List (Bytes × Nat × Nat) → Nat
  | [] => dflt
  | e :: rest => nextCursor e.2.2 rest

/-- `EngineState::next_span_start`. -/
def EngineState.next_span_start (s : EngineState) : Nat :=
  nextCursor 0 s.file_contents

/-- The UTF-8 bytes of the sentinel string `"<unknown>"`. -/
def unknownBytes : Bytes := [60, 117, 110, 107, 110, 111, 119, 110, 62]

/-- `EngineState::get_filename`: positional lookup with a sentinel fallback. -/
def EngineState.get_filename (s : EngineState) (file_id : Nat) : String :=
  match s.files[file_id]? with
  | some f => f.1
  | none => "<unknown>"

/-- `EngineState::get_file_source`: locate the file, then read its whole span
(the source decodes the slice with `from_utf8_lossy`; the sentinel is kept as
its byte string so the result type is uniform). -/
def EngineState.get_file_source (s : EngineState) (file_id : Nat) : Option Bytes :=
  match s.files[file_id]? with
  | some f => s.get_span_contents ⟨f.2.1, f.2.2⟩
  | none => some unknownBytes

/-- `EngineState::add_file`: stamp the span from the current cursor, push the
contents and the file entry, return `num_files() - 1`. -/
def EngineState.add_file (s : EngineState) (filename : String) (contents : Bytes) :
    Nat × EngineState :=
  let st := s.next_span_start
  let en := st + contents.length
  let s' : EngineState :=
    { s with
      file_contents := s.file_contents ++ [(contents, st, en)]
      files := s.files ++ [(filename, st, en)] }
  (s'.num_files - 1, s')

def StateDelta.num_files (d : StateDelta) : Nat := d.files.length
def StateDelta.num_decls (d : StateDelta) : Nat := d.decls.length
def StateDelta.num_blocks (d : StateDelta) : Nat := d.blocks.length

/-- `StateDelta::enter_scope`: push a fresh frame. -/
def StateDelta.enter_scope (d : StateDelta) : StateDelta :=
  { d with scope := d.scope ++ [ScopeFrame.new] }

/-- `StateDelta::exit_scope`: `Vec::pop`, silently a no-op on an empty stack. -/
def StateDelta.exit_scope (d : StateDelta) : StateDelta :=
  { d with scope := d.scope.dropLast }

/-- `StateWorkingSet::new`: empty delta seeded with one scope frame over the
borrowed permanent snapshot. -/
def StateWorkingSet.new (permanent_state : EngineState) : StateWorkingSet :=
  { delta :=
      { files := []
        file_contents := []
        vars := []
        decls := []
        blocks := []
        scope := [ScopeFrame.new] }
    permanent_state }

def StateWorkingSet.num_files (ws : StateWorkingSet) : Nat :=
  ws.delta.num_files + ws.permanent_state.num_files
def StateWorkingSet.num_decls (ws : StateWorkingSet) : Nat :=
  ws.delta.num_decls + ws.permanent_state.num_decls
def StateWorkingSet.num_blocks (ws : StateWorkingSet) : Nat :=
  ws.delta.num_blocks + ws.permanent_state.num_blocks

/-- `StateWorkingSet::add_decl`: append to the delta decl table, bind the name
in the top delta frame and mark the id used (the source `expect`s a frame and
panics on an empty stack; `modifyLast` is then a no-op). -/
def StateWorkingSet.add_decl (ws : StateWorkingSet) (decl : Command) :
    DeclId × StateWorkingSet :=
  let name := strBytes decl.name
  let ws' := { ws with delta := { ws.delta with decls := ws.delta.decls ++ [decl] } }
  let decl_id := ws'.num_decls - 1
  let bind := fun (f : ScopeFrame) =>
    { f with
      decls := f.decls.insert name decl_id
      visibility := f.visibility.use_id decl_id }
  let scope' := modifyLast bind ws'.delta.scope
  let ws'' := { ws' with delta := { ws'.delta with scope := scope' } }
  (decl_id, ws'')

/-- `StateWorkingSet::add_predecl`: append to the delta decl table and insert
into the top frame's `predecls`, returning the previously bound id there. -/
def StateWorkingSet.add_predecl (ws : StateWorkingSet) (decl : Command) :
    Option DeclId × StateWorkingSet :=
  let name := strBytes decl.name
  let ws' := { ws with delta := { ws.delta with decls := ws.delta.decls ++ [decl] } }
  let decl_id := ws'.num_decls - 1
  let prev := (topFrame ws'.delta.scope).bind (fun f => f.predecls.find? name)
  let scope' :=
    modifyLast (fun f => { f with predecls := f.predecls.insert name decl_id })
      ws'.delta.scope
  let ws'' := { ws' with delta := { ws'.delta with scope := scope' } }
  (prev, ws'')

/-- `StateWorkingSet::merge_predecl`: in the top frame, move the binding from
`predecls` to `decls` and mark it visible, returning the promoted id. -/
def StateWorkingSet.merge_predecl (ws : StateWorkingSet) (name : Bytes) :
    Option DeclId × StateWorkingSet :=
  match (topFrame ws.delta.scope).bind (fun f => f.predecls.find? name) with
  | some decl_id =>
    let promote := fun (f : ScopeFrame) =>
      { f with
        predecls := f.predecls.erase name
        decls := f.decls.insert name decl_id
        visibility := f.visibility.use_id decl_id }
    let scope' := modifyLast promote ws.delta.scope
    let ws' := { ws with delta := { ws.delta with scope := scope' } }
    (some decl_id, ws')
  | none => (none, ws)

/-- The delta loop of `hide_decl` on an innermost-first frame list: remove the
name from the first frame whose `decls` binds it, returning the id and the
updated (still innermost-first) list. -/
def hideDeltaLoop (name : Bytes) :
    List ScopeFrame → Option (DeclId × List ScopeFrame)
  | [] => none
  | f :: rest =>
    match f.decls.find? name with
    | some decl_id => some (decl_id, { f with decls := f.decls.erase name } :: rest)
    | none =>
      match hideDeltaLoop name rest with
      | some (decl_id, rest') => some (decl_id, f :: rest')
      | none => none

/-- The visibility accumulated by a completed innermost-first walk. -/
def accumVisList (vis : Visibility) (frames : List ScopeFrame) : Visibility :=
  frames.foldl (fun v f => v.append f.visibility) vis

/-- The permanent loop of `hide_decl`: find a still-visible binding under the
accumulated visibility. -/
def hidePermLoop (name : Bytes) (vis : Visibility) :
    List ScopeFrame → Option DeclId
  | [] => none
  | f :: rest =>
    let vis' := vis.append f.visibility
    match f.decls.find? name with
    | some id =>
      if vis'.is_id_visible id then some id else hidePermLoop name vis' rest
    | none => hidePermLoop name vis' rest

/-- `StateWorkingSet::hide_decl`: remove the binding from the innermost delta
frame holding it; otherwise record a visibility flip for a still-visible
permanent binding in the top delta frame (the source `expect`s that frame and
panics on an empty delta stack, returned as `none`). -/
def StateWorkingSet.hide_decl (ws : StateWorkingSet) (name : Bytes) :
    Option (Option DeclId × StateWorkingSet) :=
  match hideDeltaLoop name ws.delta.scope.reverse with
  | some (decl_id, rev') =>
    some (some decl_id,
      { ws with delta := { ws.delta with scope := rev'.reverse } })
  | none =>
    match topFrame ws.delta.scope with
    | none => none
    | some _ =>
      let vis := accumVisList Visibility.new ws.delta.scope.reverse
      match hidePermLoop name vis ws.permanent_state.scope.reverse with
      | some decl_id =>
        let scope' :=
          modifyLast (fun f => { f with visibility := f.visibility.hide_id decl_id })
            ws.delta.scope
        some (some decl_id, { ws with delta := { ws.delta with scope := scope' } })
      | none => some (none, ws)

/-- `StateWorkingSet::add_block`. -/
def StateWorkingSet.add_block (ws : StateWorkingSet) (block : Block) :
    BlockId × StateWorkingSet :=
  let ws' := { ws with delta := { ws.delta with blocks := ws.delta.blocks ++ [block] } }
  (ws'.num_blocks - 1, ws')

/-- `StateWorkingSet::add_module`: push the block and bind the name in the top
frame's module table. -/
def StateWorkingSet.add_module (ws : StateWorkingSet) (name : String) (block : Block) :
    BlockId × StateWorkingSet :=
  let nameB := strBytes name
  let ws' := { ws with delta := { ws.delta with blocks := ws.delta.blocks ++ [block] } }
  let block_id := ws'.num_blocks - 1
  let scope' :=
    modifyLast (fun f => { f with modules := f.modules.insert nameB block_id })
      ws'.delta.scope
  let ws'' := { ws' with delta := { ws'.delta with scope := scope' } }
  (block_id, ws'')

/-- `StateWorkingSet::activate_overlay`: bind each pair in the top frame's
decl table and mark the id used. -/
def StateWorkingSet.activate_overlay (ws : StateWorkingSet)
    (overlay : List (Bytes × DeclId)) : StateWorkingSet :=
  overlay.foldl
    (fun w (p : Bytes × DeclId) =>
      let bind := fun (f : ScopeFrame) =>
        { f with
          decls := f.decls.insert p.1 p.2
          visibility := f.visibility.use_id p.2 }
      let scope' := modifyLast bind w.delta.scope
      { w with delta := { w.delta with scope := scope' } })
    ws

/-- `StateWorkingSet::next_span_start`: the delta cursor when the delta holds
files, the permanent cursor otherwise. -/
def StateWorkingSet.next_span_start (ws : StateWorkingSet) : Nat :=
  nextCursor ws.permanent_state.next_span_start ws.delta.file_contents

/-- The chained file table seen through the working set
(`permanent.files().chain(delta.files)`). -/
def StateWorkingSet.filesList (ws : StateWorkingSet) : List (String × Nat × Nat) :=
  ws.permanent_state.files ++ ws.delta.files

/-- `StateWorkingSet::get_filename`. -/
def StateWorkingSet.get_filename (ws : StateWorkingSet) (file_id : Nat) : String :=
  match ws.filesList[file_id]? with
  | some f => f.1
  | none => "<unknown>"

/-- `StateWorkingSet::get_span_contents`: spans at or past the permanent end
cursor are looked up in the delta, the rest in the permanent state. -/
def StateWorkingSet.get_span_contents (ws : StateWorkingSet) (sp : Span) :
    Option Bytes :=
  if ws.permanent_state.next_span_start ≤ sp.start then
    findContents sp ws.delta.file_contents
  else
    ws.permanent_state.get_span_contents sp

/-- `StateWorkingSet::get_file_source` (byte-level, see `get_file_source` on
`EngineState`). -/
def StateWorkingSet.get_file_source (ws : StateWorkingSet) (file_id : Nat) :
    Option Bytes :=
  match ws.filesList[file_id]? with
  | some f => ws.get_span_contents ⟨f.2.1, f.2.2⟩
  | none => some unknownBytes

/-- `StateWorkingSet::add_file`. -/
def StateWorkingSet.add_file (ws : StateWorkingSet) (filename : String)
    (contents : Bytes) : Nat × StateWorkingSet :=
  let st := ws.next_span_start
  let en := st + contents.length
  let ws' :=
    { ws with delta :=
        { ws.delta with
          file_contents := ws.delta.file_contents ++ [(contents, st, en)]
          files := ws.delta.files ++ [(filename, st, en)] } }
  (ws'.num_files - 1, ws')

/-- `StateWorkingSet::enter_scope`. -/
def StateWorkingSet.enter_scope (ws : StateWorkingSet) : StateWorkingSet :=
  { ws with delta := ws.delta.enter_scope }

/-- `StateWorkingSet::exit_scope`. -/
def StateWorkingSet.exit_scope (ws : StateWorkingSet) : StateWorkingSet :=
  { ws with delta := ws.delta.exit_scope }

/-- The delta loop of the working set's `find_decl`: innermost-first,
`predecls` before `decls`, no visibility filtering; the accumulated visibility
is returned for the permanent phase. -/
def findDeclDeltaLoop (name : Bytes) (vis : Visibility) :
    List ScopeFrame → Option DeclId × Visibility
  | [] => (none, vis)
  | f :: rest =>
    let vis' := vis.append f.visibility
    match f.predecls.find? name with
    | some id => (some id, vis')
    | none =>
      match f.decls.find? name with
      | some id => (some id, vis')
      | none => findDeclDeltaLoop name vis' rest

/-- `StateWorkingSet::find_decl`. -/
def StateWorkingSet.find_decl (ws : StateWorkingSet) (name : Bytes) :
    Option DeclId :=
  match findDeclDeltaLoop name Visibility.new ws.delta.scope.reverse with
  | (some id, _) => some id
  | (none, vis) => findDeclPerm name vis ws.permanent_state.scope.reverse

/-- `StateWorkingSet::next_var_id`. -/
def StateWorkingSet.next_var_id (ws : StateWorkingSet) : VarId :=
  ws.permanent_state.num_vars + ws.delta.vars.length

/-- `StateWorkingSet::add_variable`: prepend the `$` sigil (byte 36) when
missing, bind the next id in the top frame, push the type. -/
def StateWorkingSet.add_variable (ws : StateWorkingSet) (name : Bytes)
    (ty : NuType) : VarId × StateWorkingSet :=
  let next_id := ws.next_var_id
  let name' := if name.head? = some 36 then name else 36 :: name
  let scope' :=
    modifyLast (fun f => { f with vars := f.vars.insert name' next_id })
      ws.delta.scope
  let ws' := { ws with delta := { ws.delta with scope := scope' } }
  let ws'' := { ws' with delta := { ws'.delta with vars := ws'.delta.vars ++ [ty] } }
  (next_id, ws'')

/-- `StateWorkingSet::get_variable` (`none` = the source panics). -/
def StateWorkingSet.get_variable (ws : StateWorkingSet) (var_id : VarId) :
    Option NuType :=
  let np := ws.permanent_state.num_vars
  if var_id < np then ws.permanent_state.get_var var_id
  else ws.delta.vars[var_id - np]?

/-- `StateWorkingSet::get_decl` (`none` = the source panics). -/
def StateWorkingSet.get_decl (ws : StateWorkingSet) (decl_id : DeclId) :
    Option Command :=
  let np := ws.permanent_state.num_decls
  if decl_id < np then ws.permanent_state.get_decl decl_id
  else ws.delta.decls[decl_id - np]?

/-- `StateWorkingSet::get_block` (`none` = the source panics). -/
def StateWorkingSet.get_block (ws : StateWorkingSet) (block_id : BlockId) :
    Option Block :=
  let np := ws.permanent_state.num_blocks
  if block_id < np then ws.permanent_state.get_block block_id
  else ws.delta.blocks[block_id - np]?

/-- `StateWorkingSet::render`. -/
def StateWorkingSet.render (ws : StateWorkingSet) : StateDelta := ws.delta

/-! ### Specification-side resolution order (for the refinement claim)

The following definitions restate the documented resolution order of
`find_decl` over a working set word for word: delta frames innermost-first
with `predecls` before `decls` and no visibility filtering, then permanent
frames innermost-first where the visibility consulted at the i-th frame is
recomputed from scratch as the inner-frames-take-precedence accumulation of
all delta frames and the first i permanent frames. -/

/-- First name match over innermost-first delta frames, `predecls` before
`decls`, with no visibility filtering. -/
def deltaFirstMatch (name : Bytes) : List ScopeFrame → Option DeclId
  | [] => none
  | f :: rest =>
    match f.predecls.find? name with
    | some id => some id
    | none =>
      match f.decls.find? name with
      | some id => some id
      | none => deltaFirstMatch name rest

/-- Permanent walk where the visibility used at each frame is recomputed from
the full innermost-first accumulation up to and including that frame. -/
def permSpecGo (name : Bytes) (base : List ScopeFrame) :
    List ScopeFrame → Option DeclId
  | [] => none
  | f :: rest =>
    let vis := accumVisList Visibility.new (base ++ [f])
    match f.decls.find? name with
    | some id =>
      if vis.is_id_visible id then some id else permSpecGo name (base ++ [f]) rest
    | none => permSpecGo name (base ++ [f]) rest

/-- The documented resolution order, assembled. -/
def findDeclSpecOrder (ws : StateWorkingSet) (name : Bytes) : Option DeclId :=
  match deltaFirstMatch name ws.delta.scope.reverse with
  | some id => some id
  | none => permSpecGo name ws.delta.scope.reverse ws.permanent_state.scope.reverse

/-! ### Working-set call sequences -/

/-- One working-set growth call (the operations quantified over by the ID
stability property). -/
inductive WsOp where
  | opFile (filename : String) (contents : Bytes)
  | opDecl (cmd : Command)
  | opPredecl (cmd : Command)
  | opVar (name : Bytes) (ty : NuType)
  | opBlock (b : Block)
  | opModule (name : String) (b : Block)

/-- Apply one call; the first component is the id the call assigns to the new
entry (for `add_predecl` the source returns the previously bound pre-decl id
instead, so the assigned id is read off as `num_decls` before the call). -/
def applyOp (ws : StateWorkingSet) : WsOp → Nat × StateWorkingSet
  | .opFile nm c => ws.add_file nm c
  | .opDecl c => ws.add_decl c
  | .opPredecl c => (ws.num_decls, (ws.add_predecl c).2)
  | .opVar n t => ws.add_variable n t
  | .opBlock b => ws.add_block b
  | .opModule n b => ws.add_module n b

/-- Run a sequence of growth calls. -/
def runOps (ws : StateWorkingSet) : List WsOp → StateWorkingSet
  | [] => ws
  | op :: rest => runOps (applyOp ws op).2 rest

/-- `permanent.len(K) + delta.len(K)` for the kind of entry an op creates. -/
def opCount (ws : StateWorkingSet) : WsOp → Nat
  | .opFile _ _ => ws.permanent_state.num_files + ws.delta.num_files
  | .opDecl _ => ws.permanent_state.num_decls + ws.delta.num_decls
  | .opPredecl _ => ws.permanent_state.num_decls + ws.delta.num_decls
  | .opVar _ _ => ws.permanent_state.num_vars + ws.delta.vars.length
  | .opBlock _ => ws.permanent_state.num_blocks + ws.delta.num_blocks
  | .opModule _ _ => ws.permanent_state.num_blocks + ws.delta.num_blocks

/-- Contiguity of a file-contents table from a base cursor: each entry starts
at the running cursor and ends `length` bytes later. -/
def chainFrom (c : Nat) : List (Bytes × Nat × Nat) → Bool
  | [] => true
  | e :: rest => (e.2.1 == c) && (e.2.2 == e.2.1 + e.1.length) && chainFrom e.2.2 rest

/-- The span stamped on a file entry. -/
def spanOf {α : Type} (e : α × Nat × Nat) : Nat × Nat := (e.2.1, e.2.2)

/-- Well-formedness of a permanent state's file tables: contiguous spans from
offset 0 and matching spans on `files` and `file_contents` (every state built
through the API satisfies this). -/
def engineWF (E : EngineState) : Bool :=
  chainFrom 0 E.file_contents &&
    decide (E.files.map spanOf = E.file_contents.map spanOf)

/-- A permanent state grown by a sequence of `add_file` calls. -/
def addFiles (E : EngineState) : List (String × Bytes) → EngineState
  | [] => E
  | (nm, c) :: rest => addFiles (E.add_file nm c).2 rest

/-- Conclusion of the ID-stability property for a permanent state `E` and a
sequence of working-set growth calls `ops`: each call assigns the id
`permanent.len(K) + delta.len(K)` of its kind, the rendered delta merges, and
every id lookup agrees between the working set and the merged permanent state
(file sources compared on the delta-assigned file ids). -/
def StabilityConcl (E : EngineState) (ops : List WsOp) : Prop :=
  (∀ w op, (applyOp w op).1 = opCount w op) ∧
  ∃ E', E.merge_delta (runOps (StateWorkingSet.new E) ops).render = some E' ∧
    (∀ id, (runOps (StateWorkingSet.new E) ops).get_decl id = E'.get_decl id) ∧
    (∀ id, (runOps (StateWorkingSet.new E) ops).get_variable id = E'.get_var id) ∧
    (∀ id, (runOps (StateWorkingSet.new E) ops).get_block id = E'.get_block id) ∧
    (∀ id, (runOps (StateWorkingSet.new E) ops).get_filename id = E'.get_filename id) ∧
    (∀ id, E.num_files ≤ id →
      (runOps (StateWorkingSet.new E) ops).get_file_source id = E'.get_file_source id)

/-- Conclusion of the span-coverage property for a permanent state built by
`add_file` calls `fl` and a working set grown over it by `ops`. -/
def SpanCoverageConcl (fl : List (String × Bytes)) (ops : List WsOp) : Prop :=
  let E := addFiles EngineState.new fl
  let ws := runOps (StateWorkingSet.new E) ops
  -- contiguity of all recorded ranges starting at offset 0
  chainFrom 0 (E.file_contents ++ ws.delta.file_contents) = true ∧
  -- each range is exactly as long as its buffer
  (∀ e ∈ E.file_contents ++ ws.delta.file_contents,
    e.2.2 = e.2.1 + e.1.length) ∧
  -- the working set's cursor is the max of the permanent and delta cursors
  ws.next_span_start =
    Nat.max E.next_span_start (nextCursor 0 ws.delta.file_contents) ∧
  -- full-range reads succeed with the right length on the registering state
  (∀ e ∈ E.file_contents, ∃ b,
    E.get_span_contents ⟨e.2.1, e.2.2⟩ = some b ∧ b.length = e.2.2 - e.2.1) ∧
  (∀ e ∈ ws.delta.file_contents, ∃ b,
    ws.get_span_contents ⟨e.2.1, e.2.2⟩ = some b ∧ b.length = e.2.2 - e.2.1) ∧
  -- permanent files read through the working set, away from the degenerate
  -- boundary case (an empty permanent file at the cursor with an empty delta)
  (∀ e ∈ E.file_contents,
    e.2.1 < E.next_span_start ∨ ws.delta.file_contents ≠ [] →
      ∃ b, ws.get_span_contents ⟨e.2.1, e.2.2⟩ = some b ∧
        b.length = e.2.2 - e.2.1)

/-! ### Concrete states used by counterexamples and witnesses -/

/-- A command named `foo`. -/
def cmdFoo : Command := { name := "foo" }

/-- A second, distinct command named `foo`. -/
def cmdFoo2 : Command := { name := "foo", usage := "second" }

/-- A command named `bar`. -/
def cmdBar : Command := { name := "bar" }

/-- The bytes of the name `foo`. -/
def fooB : Bytes := strBytes "foo"

/-- A permanent state whose root frame visibly binds `foo` to decl id 0,
obtained by committing one `add_decl`. -/
def Efoo : EngineState :=
  (EngineState.new.merge_delta
      (((StateWorkingSet.new EngineState.new).add_decl cmdFoo).2.render)).getD
    EngineState.new

/-- A working set over `Efoo` that re-activated the permanent `foo` through an
overlay. -/
def wsOv : StateWorkingSet := (StateWorkingSet.new Efoo).activate_overlay [(fooB, 0)]

/-- The working set after hiding `foo` on `wsOv`. -/
def wsOvHidden : StateWorkingSet :=
  ((wsOv.hide_decl fooB).map (fun p => p.2)).getD wsOv

/-- A working set over an empty engine with one `foo` declaration added. -/
def wsD : StateWorkingSet :=
  ((StateWorkingSet.new EngineState.new).add_decl cmdFoo).2

/-- The working set after hiding `foo` on `wsD` (the delta-removal branch). -/
def resD : StateWorkingSet :=
  ((wsD.hide_decl fooB).map (fun p => p.2)).getD wsD

/-- Two permanent files of sizes 3 and 5 (the spec's literal span scenario). -/
def E35 : EngineState :=
  ((EngineState.new.add_file "a" [97, 98, 99]).2.add_file "b"
    [100, 101, 102, 103, 104]).2

/-- One permanent file of size 3. -/
def E3 : EngineState := (EngineState.new.add_file "a" [97, 98, 99]).2

/-- One empty permanent file. -/
def E0f : EngineState := (EngineState.new.add_file "a" []).2

/-- A delta with an empty scope stack (all frames popped). -/
def emptyDelta : StateDelta :=
  { files := [], file_contents := [], vars := [], decls := [], blocks := []
    scope := [] }

/-- A delta with two open scope frames (depth 2). -/
def twoFrameDelta : StateDelta :=
  { emptyDelta with scope := ScopeFrame.new :: [ScopeFrame.new] }

/-- A root scope frame visibly binding `foo` to decl id 0 (literal form). -/
def frameFoo : ScopeFrame :=
  { ScopeFrame.new with
    decls := NMap.empty.insert fooB 0
    visibility := Visibility.new.use_id 0 }

/-- A literal permanent state binding `foo` to decl id 0 in its root frame. -/
def EfooLit : EngineState :=
  { files := [], file_contents := [], vars := [], decls := [cmdFoo], blocks := []
    scope := [frameFoo] }

/-- A delta whose single frame holds an unpromoted pre-declaration of `foo`
(with the pre-declared command appended to the delta decl table). -/
def deltaPre : StateDelta :=
  { files := [], file_contents := [], vars := [], decls := [cmdFoo2], blocks := []
    scope := [{ ScopeFrame.new with predecls := NMap.empty.insert fooB 1 }] }

/-- The merge of `deltaPre` onto `EfooLit`. -/
def EfooLitPost : EngineState := (EfooLit.merge_delta deltaPre).getD EfooLit

/-- A working set over `Efoo` holding an unpromoted pre-declaration of `foo`
and a visibility flip hiding the permanent `foo` (for the merge scenario). -/
def wsPreHide : StateWorkingSet :=
  (((((StateWorkingSet.new Efoo).add_predecl cmdFoo2).2.hide_decl fooB).map
      (fun p => p.2)).getD
    (StateWorkingSet.new Efoo))

/-- The merge of `wsPreHide`'s delta onto `Efoo`. -/
def EfooAfter : Option EngineState := Efoo.merge_delta wsPreHide.render

/-- A small op sequence used to instantiate the universal theorems. -/
def opsW : List WsOp :=
  [WsOp.opDecl cmdBar, WsOp.opFile "w.nu" [1, 2], WsOp.opVar [120] NuType.int,
    WsOp.opBlock {}, WsOp.opModule "m" {}, WsOp.opPredecl cmdFoo,
    WsOp.opFile "x.nu" []]

/-! ### Basic lemmas about the list and map helpers -/

theorem modifyLast_reverse {α : Type} (f : α → α) (l : List α) :
    (modifyLast f l).reverse =
      match l.reverse with
      | [] => []
      | a :: r => f a :: r := by
  unfold modifyLast
  rw [List.reverse_reverse]

theorem length_modifyLast {α : Type} (f : α → α) (l : List α) :
    (modifyLast f l).length = l.length := by
  unfold modifyLast
  cases h : l.reverse with
  | nil =>
    have : l = [] := by simpa using congrArg List.reverse h
    simp [this]
  | cons a r =>
    have : l.length = l.reverse.length := (List.length_reverse l).symm
    simp [this, h]

theorem topFrame_modifyLast (f : ScopeFrame → ScopeFrame) (l : List ScopeFrame) :
    topFrame (modifyLast f l) = (topFrame l).map f := by
  unfold topFrame
  rw [modifyLast_reverse]
  cases l.reverse <;> simp

theorem map_modifyLast {α β : Type} (g : α → β) (h : α → α) (l : List α)
    (hg : ∀ x, g (h x) = g x) : (modifyLast h l).map g = l.map g := by
  have hrev : ((modifyLast h l).map g).reverse = (l.map g).reverse := by
    rw [← List.map_reverse, ← List.map_reverse, modifyLast_reverse]
    cases l.reverse with
    | nil => rfl
    | cons a r => simp [hg]
  simpa using congrArg List.reverse hrev

theorem modifyLast_reverse_cons (f : ScopeFrame → ScopeFrame) (l : List ScopeFrame)
    (a : ScopeFrame) (r : List ScopeFrame) (h : l.reverse = a :: r) :
    (modifyLast f l).reverse = f a :: r := by
  rw [modifyLast_reverse, h]

/-! ### Chain (span contiguity) lemmas -/

theorem chainFrom_le (b : Nat) (l : List (Bytes × Nat × Nat))
    (h : chainFrom b l = true) : b ≤ nextCursor b l := by
  induction l generalizing b with
  | nil => simp [nextCursor]
  | cons e rest ih =>
    simp only [chainFrom, Bool.and_eq_true, beq_iff_eq] at h
    obtain ⟨⟨h1, h2⟩, h3⟩ := h
    have := ih e.2.2 h3
    simp only [nextCursor]
    omega

theorem chainFrom_mem_start (b : Nat) (l : List (Bytes × Nat × Nat))
    (h : chainFrom b l = true) (e : Bytes × Nat × Nat) (he : e ∈ l) :
    b ≤ e.2.1 := by
  induction l generalizing b with
  | nil => simp at he
  | cons x rest ih =>
    simp only [chainFrom, Bool.and_eq_true, beq_iff_eq] at h
    obtain ⟨⟨h1, h2⟩, h3⟩ := h
    rcases List.mem_cons.mp he with rfl | hmem
    · omega
    · have := ih x.2.2 h3 hmem
      omega

theorem chainFrom_mem_end (b : Nat) (l : List (Bytes × Nat × Nat))
    (h : chainFrom b l = true) (e : Bytes × Nat × Nat) (he : e ∈ l) :
    e.2.2 ≤ nextCursor b l := by
  induction l generalizing b with
  | nil => simp at he
  | cons x rest ih =>
    simp only [chainFrom, Bool.and_eq_true, beq_iff_eq] at h
    obtain ⟨⟨h1, h2⟩, h3⟩ := h
    rcases List.mem_cons.mp he with rfl | hmem
    · have := chainFrom_le e.2.2 rest h3
      simp only [nextCursor]
      omega
    · have := ih x.2.2 h3 hmem
      simp only [nextCursor]
      omega

theorem chainFrom_mem_len (b : Nat) (l : List (Bytes × Nat × Nat))
    (h : chainFrom b l = true) (e : Bytes × Nat × Nat) (he : e ∈ l) :
    e.2.2 = e.2.1 + e.1.length := by
  induction l generalizing b with
  | nil => simp at he
  | cons x rest ih =>
    simp only [chainFrom, Bool.and_eq_true, beq_iff_eq] at h
    obtain ⟨⟨h1, h2⟩, h3⟩ := h
    rcases List.mem_cons.mp he with rfl | hmem
    · exact h2
    · exact ih x.2.2 h3 hmem

theorem nextCursor_ne_nil (a b : Nat) (l : List (Bytes × Nat × Nat))
    (h : l ≠ []) : nextCursor a l = nextCursor b l := by
  cases l with
  | nil => exact absurd rfl h
  | cons e rest => simp [nextCursor]

theorem chainFrom_append_one (b : Nat) (l : List (Bytes × Nat × Nat))
    (bs : Bytes) (h : chainFrom b l = true) :
    chainFrom b (l ++ [(bs, nextCursor b l, nextCursor b l + bs.length)]) = true := by
  induction l generalizing b with
  | nil => simp [chainFrom, nextCursor]
  | cons e rest ih =>
    simp only [chainFrom, Bool.and_eq_true, beq_iff_eq] at h
    obtain ⟨⟨h1, h2⟩, h3⟩ := h
    have := ih e.2.2 h3
    simp only [nextCursor, List.cons_append, chainFrom, Bool.and_eq_true, beq_iff_eq]
    exact ⟨⟨h1, h2⟩, this⟩

theorem chainFrom_append_chain (b : Nat) (l1 l2 : List (Bytes × Nat × Nat))
    (h1 : chainFrom b l1 = true) (h2 : chainFrom (nextCursor b l1) l2 = true) :
    chainFrom b (l1 ++ l2) = true := by
  induction l1 generalizing b with
  | nil => simpa [nextCursor] using h2
  | cons e rest ih =>
    simp only [chainFrom, Bool.and_eq_true, beq_iff_eq] at h1
    obtain ⟨⟨ha, hb⟩, hc⟩ := h1
    simp only [nextCursor] at h2
    simp only [List.cons_append, chainFrom, Bool.and_eq_true, beq_iff_eq]
    exact ⟨⟨ha, hb⟩, ih e.2.2 hc h2⟩

/-! ### findContents (span lookup) lemmas -/

theorem findContents_append (sp : Span) (l1 l2 : List (Bytes × Nat × Nat)) :
    findContents sp (l1 ++ l2) =
      match findContents sp l1 with
      | some r => some r
      | none => findContents sp l2 := by
  induction l1 with
  | nil => simp [findContents]
  | cons e rest ih =>
    by_cases h : containsSpan e sp
    · simp [findContents, h]
    · simp [findContents, h, ih]

theorem findContents_isSome_iff (sp : Span) (l : List (Bytes × Nat × Nat)) :
    (findContents sp l).isSome = true ↔ ∃ e ∈ l, containsSpan e sp = true := by
  induction l with
  | nil => simp [findContents]
  | cons e rest ih =>
    by_cases h : containsSpan e sp
    · simp [findContents, h]
    · simp [findContents, h, ih]

theorem findContents_some_ex (sp : Span) (l : List (Bytes × Nat × Nat))
    (r : Bytes) (h : findContents sp l = some r) :
    ∃ e ∈ l, containsSpan e sp = true ∧ r = sliceOf e sp := by
  induction l with
  | nil => simp [findContents] at h
  | cons e rest ih =>
    by_cases hc : containsSpan e sp
    · simp [findContents, hc] at h
      exact ⟨e, List.mem_cons_self e rest, hc, h.symm⟩
    · simp [findContents, hc] at h
      obtain ⟨x, hx, hcx, hr⟩ := ih h
      exact ⟨x, List.mem_cons_of_mem e hx, hcx, hr⟩

theorem findContents_all_empty (sp : Span) (l : List (Bytes × Nat × Nat))
    (hsp : sp.stop ≤ sp.start) (hex : ∃ e ∈ l, containsSpan e sp = true) :
    findContents sp l = some [] := by
  induction l with
  | nil => simp at hex
  | cons e rest ih =>
    by_cases hc : containsSpan e sp
    · have hz : sp.stop - sp.start = 0 := by omega
      simp [findContents, hc, sliceOf, hz]
    · obtain ⟨x, hx, hcx⟩ := hex
      rcases List.mem_cons.mp hx with rfl | hmem
      · exact absurd hcx hc
      · simp only [findContents, hc, if_neg]
        exact ih ⟨x, hmem, hcx⟩

theorem chainFrom_cover (b : Nat) (l : List (Bytes × Nat × Nat))
    (h : chainFrom b l = true) (e : Bytes × Nat × Nat) (he : e ∈ l) :
    ∃ bf, findContents ⟨e.2.1, e.2.2⟩ l = some bf ∧
      bf.length = e.2.2 - e.2.1 := by
  induction l generalizing b with
  | nil => simp at he
  | cons x rest ih =>
    have hx := h
    simp only [chainFrom, Bool.and_eq_true, beq_iff_eq] at hx
    obtain ⟨⟨h1, h2⟩, h3⟩ := hx
    rcases List.mem_cons.mp he with rfl | hmem
    · have hc : containsSpan e ⟨e.2.1, e.2.2⟩ = true := by
        simp [containsSpan]
      refine ⟨sliceOf e ⟨e.2.1, e.2.2⟩, by simp [findContents, hc], ?_⟩
      simp [sliceOf]
      omega
    · by_cases hc : containsSpan x ⟨e.2.1, e.2.2⟩ = true
      · -- the head can only contain a degenerate (empty) span of a later entry
        have hstart : x.2.2 ≤ e.2.1 := chainFrom_mem_start x.2.2 rest h3 e hmem
        simp only [containsSpan, Bool.and_eq_true, decide_eq_true_eq] at hc
        have hz : e.2.2 - e.2.1 = 0 := by omega
        refine ⟨sliceOf x ⟨e.2.1, e.2.2⟩, ?_, ?_⟩
        · simp [findContents, containsSpan, hc]
        · simp [sliceOf, hz]
      · obtain ⟨bf, hf, hlen⟩ := ih x.2.2 h3 hmem
        refine ⟨bf, ?_, hlen⟩
        simp [findContents, hc, hf]

theorem findContents_perm_delta (pEnd : Nat) (P D : List (Bytes × Nat × Nat))
    (hP : ∀ e ∈ P, e.2.2 ≤ pEnd) (hD : chainFrom pEnd D = true) (hne : D ≠ [])
    (sp : Span) (hsp : pEnd ≤ sp.start) :
    findContents sp (P ++ D) = findContents sp D := by
  rw [findContents_append]
  cases hp : findContents sp P with
  | none => rfl
  | some r =>
    obtain ⟨e, he, hc, hr⟩ := findContents_some_ex sp P r hp
    simp only [containsSpan, Bool.and_eq_true, decide_eq_true_eq] at hc
    have hend := hP e he
    have hstop : sp.stop ≤ sp.start := by omega
    have hrempty : r = [] := by
      have : sp.stop - sp.start = 0 := by omega
      simp [hr, sliceOf, this]
    cases D with
    | nil => exact absurd rfl hne
    | cons d rest =>
      have hd := hD
      simp only [chainFrom, Bool.and_eq_true, beq_iff_eq] at hd
      obtain ⟨⟨hd1, hd2⟩, _⟩ := hd
      have hcd : containsSpan d sp = true := by
        simp only [containsSpan, Bool.and_eq_true, decide_eq_true_eq]
        omega
      have : findContents sp (d :: rest) = some [] := by
        have hz : sp.stop - sp.start = 0 := by omega
        simp [findContents, hcd, sliceOf, hz]
      rw [this, hrempty]

theorem findContents_last_exact (b : Nat) (l : List (Bytes × Nat × Nat))
    (bs : Bytes) (h : chainFrom b l = true) :
    findContents ⟨nextCursor b l, nextCursor b l + bs.length⟩
        (l ++ [(bs, nextCursor b l, nextCursor b l + bs.length)]) = some bs := by
  rcases List.eq_nil_or_concat bs.reverse with hb | hb
  · -- empty contents: any first container yields the empty slice
    have hbs : bs = [] := by simpa using congrArg List.reverse hb
    subst hbs
    apply findContents_all_empty
    · simp
    · refine ⟨(([] : Bytes), nextCursor b l, nextCursor b l + 0), ?_, ?_⟩
      · simp
      · simp [containsSpan]
  · -- nonempty contents: no earlier entry can contain the span
    have hpos : 0 < bs.length := by
      rcases hb with ⟨r, a, hr⟩
      have : bs.reverse.length = r.length + 1 := by rw [hr]; simp
      simp at this
      omega
    induction l generalizing b with
    | nil =>
      have hc : containsSpan (bs, nextCursor b [], nextCursor b [] + bs.length)
          ⟨nextCursor b [], nextCursor b [] + bs.length⟩ = true := by
        simp [containsSpan]
      simp [findContents, hc, sliceOf]
    | cons x rest ih =>
      have hx := h
      simp only [chainFrom, Bool.and_eq_true, beq_iff_eq] at hx
      obtain ⟨⟨h1, h2⟩, h3⟩ := hx
      have hcur : nextCursor b (x :: rest) = nextCursor x.2.2 rest := by
        simp [nextCursor]
      have hxend : x.2.2 ≤ nextCursor x.2.2 rest := chainFrom_le x.2.2 rest h3
      have hc : containsSpan x
          ⟨nextCursor b (x :: rest), nextCursor b (x :: rest) + bs.length⟩ = false := by
        simp only [containsSpan, Bool.and_eq_false_iff]
        right
        simp only [decide_eq_false_iff_not]
        rw [hcur]
        omega
      simp only [List.cons_append, findContents, hc, Bool.false_eq_true, if_false]
      rw [hcur]
      exact ih x.2.2 h3

/-! ### Visibility and resolution lemmas -/

theorem append_ids (v w : Visibility) (q : DeclId) :
    (v.append w).ids q =
      match v.ids q with
      | some b => some b
      | none => w.ids q := rfl

theorem append_ids_some (v w : Visibility) (q : DeclId) (b : Bool)
    (h : v.ids q = some b) : (v.append w).ids q = some b := by
  simp [Visibility.append, h]

theorem accumVisList_append_one (vis : Visibility) (l : List ScopeFrame)
    (f : ScopeFrame) :
    accumVisList vis (l ++ [f]) = (accumVisList vis l).append f.visibility := by
  simp [accumVisList, List.foldl_append]

theorem accumVisList_pres (vis : Visibility) (l : List ScopeFrame) (q : DeclId)
    (b : Bool) (h : vis.ids q = some b) : (accumVisList vis l).ids q = some b := by
  induction l generalizing vis with
  | nil => exact h
  | cons f rest ih =>
    exact ih (vis.append f.visibility) (append_ids_some vis f.visibility q b h)

theorem findDeclPerm_some_ex (n : Bytes) (vis : Visibility) (l : List ScopeFrame)
    (v : DeclId) (h : findDeclPerm n vis l = some v) :
    ∃ f ∈ l, f.decls.find? n = some v := by
  induction l generalizing vis with
  | nil => simp [findDeclPerm] at h
  | cons f rest ih =>
    cases hd : f.decls.find? n with
    | some id =>
      simp only [findDeclPerm, hd] at h
      by_cases hv : (vis.append f.visibility).is_id_visible id
      · rw [if_pos hv] at h
        exact ⟨f, List.mem_cons_self f rest, by rw [hd, h]⟩
      · rw [if_neg hv] at h
        obtain ⟨g, hg, hgv⟩ := ih (vis.append f.visibility) h
        exact ⟨g, List.mem_cons_of_mem f hg, hgv⟩
    | none =>
      simp only [findDeclPerm, hd] at h
      obtain ⟨g, hg, hgv⟩ := ih (vis.append f.visibility) h
      exact ⟨g, List.mem_cons_of_mem f hg, hgv⟩

theorem findDeclPerm_blocked (n : Bytes) (vis : Visibility) (l : List ScopeFrame)
    (id : DeclId) (h : vis.ids id = some false) :
    findDeclPerm n vis l ≠ some id := by
  induction l generalizing vis with
  | nil => simp [findDeclPerm]
  | cons f rest ih =>
    have h' : (vis.append f.visibility).ids id = some false :=
      append_ids_some vis f.visibility id false h
    cases hd : f.decls.find? n with
    | some j =>
      simp only [findDeclPerm, hd]
      by_cases hj : j = id
      · subst hj
        have hvj : (vis.append f.visibility).is_id_visible j = false := by
          simp [Visibility.is_id_visible, h']
        rw [hvj]
        simp only [Bool.false_eq_true, if_false]
        exact ih (vis.append f.visibility) h'
      · by_cases hv : (vis.append f.visibility).is_id_visible j
        · rw [if_pos hv]
          simp [hj]
        · rw [if_neg hv]
          exact ih (vis.append f.visibility) h'
    | none =>
      simp only [findDeclPerm, hd]
      exact ih (vis.append f.visibility) h'

theorem findDeclPerm_congr (n : Bytes) (l : List ScopeFrame)
    (visA visB : Visibility)
    (hag : ∀ id f, f ∈ l → f.decls.find? n = some id → visA.ids id = visB.ids id) :
    findDeclPerm n visA l = findDeclPerm n visB l := by
  induction l generalizing visA visB with
  | nil => rfl
  | cons f rest ih =>
    have hag' : ∀ id g, g ∈ rest → g.decls.find? n = some id →
        (visA.append f.visibility).ids id = (visB.append f.visibility).ids id := by
      intro id g hg hgv
      have := hag id g (List.mem_cons_of_mem f hg) hgv
      rw [append_ids, append_ids, this]
    cases hd : f.decls.find? n with
    | some id =>
      simp only [findDeclPerm, hd]
      have heq : (visA.append f.visibility).ids id = (visB.append f.visibility).ids id := by
        have := hag id f (List.mem_cons_self f rest) hd
        rw [append_ids, append_ids, this]
      have hv : (visA.append f.visibility).is_id_visible id =
          (visB.append f.visibility).is_id_visible id := by
        simp [Visibility.is_id_visible, heq]
      rw [hv]
      by_cases hvis : (visB.append f.visibility).is_id_visible id
      · rw [if_pos hvis, if_pos hvis]
      · rw [if_neg hvis, if_neg hvis]
        exact ih _ _ hag'
    | none =>
      simp only [findDeclPerm, hd]
      exact ih _ _ hag'

theorem findDeclDeltaLoop_fst_vis (n : Bytes) (l : List ScopeFrame)
    (visA visB : Visibility) :
    (findDeclDeltaLoop n visA l).1 = (findDeclDeltaLoop n visB l).1 := by
  induction l generalizing visA visB with
  | nil => rfl
  | cons f rest ih =>
    simp only [findDeclDeltaLoop]
    cases f.predecls.find? n with
    | some id => rfl
    | none =>
      cases f.decls.find? n with
      | some id => rfl
      | none => exact ih _ _

theorem findDeclDeltaLoop_none_iff (n : Bytes) (vis : Visibility)
    (l : List ScopeFrame) :
    (findDeclDeltaLoop n vis l).1 = none ↔
      ∀ f ∈ l, f.predecls.find? n = none ∧ f.decls.find? n = none := by
  induction l generalizing vis with
  | nil => simp [findDeclDeltaLoop]
  | cons f rest ih =>
    simp only [findDeclDeltaLoop]
    cases hp : f.predecls.find? n with
    | some id =>
      simp only [List.mem_cons]
      constructor
      · intro h; exact absurd h (by simp)
      · intro h
        have := (h f (Or.inl rfl)).1
        rw [hp] at this
        exact absurd this (by simp)
    | none =>
      cases hd : f.decls.find? n with
      | some id =>
        simp only [List.mem_cons]
        constructor
        · intro h; exact absurd h (by simp)
        · intro h
          have := (h f (Or.inl rfl)).2
          rw [hd] at this
          exact absurd this (by simp)
      | none =>
        rw [ih (vis.append f.visibility)]
        constructor
        · intro h g hg
          rcases List.mem_cons.mp hg with rfl | hg'
          · exact ⟨hp, hd⟩
          · exact h g hg'
        · intro h g hg
          exact h g (List.mem_cons_of_mem f hg)

theorem findDeclDeltaLoop_some_ex (n : Bytes) (vis : Visibility)
    (l : List ScopeFrame) (v : DeclId)
    (h : (findDeclDeltaLoop n vis l).1 = some v) :
    ∃ f ∈ l, f.predecls.find? n = some v ∨ f.decls.find? n = some v := by
  induction l generalizing vis with
  | nil => simp [findDeclDeltaLoop] at h
  | cons f rest ih =>
    simp only [findDeclDeltaLoop] at h
    cases hp : f.predecls.find? n with
    | some id =>
      rw [hp] at h
      simp only [Option.some.injEq] at h
      exact ⟨f, List.mem_cons_self f rest, Or.inl (by rw [hp, h])⟩
    | none =>
      rw [hp] at h
      cases hd : f.decls.find? n with
      | some id =>
        rw [hd] at h
        simp only [Option.some.injEq] at h
        exact ⟨f, List.mem_cons_self f rest, Or.inr (by rw [hd, h])⟩
      | none =>
        rw [hd] at h
        obtain ⟨g, hg, hgv⟩ := ih (vis.append f.visibility) h
        exact ⟨g, List.mem_cons_of_mem f hg, hgv⟩

theorem findDeclDeltaLoop_snd_pres (n : Bytes) (vis : Visibility)
    (l : List ScopeFrame) (q : DeclId) (b : Bool) (h : vis.ids q = some b) :
    ((findDeclDeltaLoop n vis l).2).ids q = some b := by
  induction l generalizing vis with
  | nil => exact h
  | cons f rest ih =>
    have h' := append_ids_some vis f.visibility q b h
    simp only [findDeclDeltaLoop]
    cases f.predecls.find? n with
    | some id => exact h'
    | none =>
      cases f.decls.find? n with
      | some id => exact h'
      | none => exact ih (vis.append f.visibility) h'

theorem findDeclDeltaLoop_snd_of_none (n : Bytes) (vis : Visibility)
    (l : List ScopeFrame) (h : (findDeclDeltaLoop n vis l).1 = none) :
    (findDeclDeltaLoop n vis l).2 = accumVisList vis l := by
  induction l generalizing vis with
  | nil => rfl
  | cons f rest ih =>
    simp only [findDeclDeltaLoop] at h ⊢
    cases hp : f.predecls.find? n with
    | some id => rw [hp] at h; simp at h
    | none =>
      rw [hp] at h
      cases hd : f.decls.find? n with
      | some id => rw [hd] at h; simp at h
      | none =>
        rw [hd] at h
        rw [ih (vis.append f.visibility) h]
        rfl

theorem hideDeltaLoop_none_iff (n : Bytes) (l : List ScopeFrame) :
    hideDeltaLoop n l = none ↔ ∀ f ∈ l, f.decls.find? n = none := by
  induction l with
  | nil => simp [hideDeltaLoop]
  | cons f rest ih =>
    simp only [hideDeltaLoop]
    cases hd : f.decls.find? n with
    | some id =>
      constructor
      · intro h; exact absurd h (by simp)
      · intro h
        have := h f (List.mem_cons_self f rest)
        rw [hd] at this
        exact absurd this (by simp)
    | none =>
      cases hr : hideDeltaLoop n rest with
      | some p =>
        constructor
        · intro h; exact absurd h (by simp)
        · intro h
          have : hideDeltaLoop n rest = none :=
            ih.mpr (fun g hg => h g (List.mem_cons_of_mem f hg))
          rw [hr] at this
          exact absurd this (by simp)
      | none =>
        simp only [true_iff]
        intro g hg
        rcases List.mem_cons.mp hg with rfl | hg'
        · exact hd
        · exact (ih.mp hr) g hg'

theorem hideDeltaLoop_some_src (n : Bytes) (l : List ScopeFrame)
    (id : DeclId) (l' : List ScopeFrame) (h : hideDeltaLoop n l = some (id, l')) :
    ∃ f ∈ l, f.decls.find? n = some id := by
  induction l generalizing l' with
  | nil => simp [hideDeltaLoop] at h
  | cons f rest ih =>
    simp only [hideDeltaLoop] at h
    cases hd : f.decls.find? n with
    | some j =>
      rw [hd] at h
      simp only [Option.some.injEq, Prod.mk.injEq] at h
      exact ⟨f, List.mem_cons_self f rest, by rw [hd, h.1]⟩
    | none =>
      rw [hd] at h
      cases hr : hideDeltaLoop n rest with
      | some p =>
        rw [hr] at h
        obtain ⟨g, hg, hgv⟩ := ih p.2 (by rw [hr]; simp only [Option.some.injEq, Prod.mk.injEq] at h; rw [← h.1])
        exact ⟨g, List.mem_cons_of_mem f hg, hgv⟩
      | none => rw [hr] at h; simp at h

/-! ### merge_delta shape lemmas -/

theorem merge_delta_tables (E : EngineState) (d : StateDelta) (E' : EngineState)
    (h : E.merge_delta d = some E') :
    E'.files = E.files ++ d.files ∧
    E'.file_contents = E.file_contents ++ d.file_contents ∧
    E'.decls = E.decls ++ d.decls ∧
    E'.vars = E.vars ++ d.vars ∧
    E'.blocks = E.blocks ++ d.blocks := by
  unfold EngineState.merge_delta at h
  cases ht : topFrame E.scope with
  | none =>
    simp only [ht] at h
    cases h
    simp
  | some fr =>
    simp only [ht] at h
    cases hs : d.scope with
    | nil => rw [hs] at h; cases h
    | cons first rest =>
      rw [hs] at h
      cases h
      simp

theorem merge_delta_scope (E : EngineState) (d : StateDelta) (E' : EngineState)
    (h : E.merge_delta d = some E') :
    (topFrame E.scope = none ∧ E'.scope = E.scope) ∨
      (∃ first rest, d.scope = first :: rest ∧
        E'.scope = modifyLast (fun last => mergeScopeFrame first last) E.scope) := by
  unfold EngineState.merge_delta at h
  cases ht : topFrame E.scope with
  | none =>
    simp only [ht] at h
    cases h
    exact Or.inl ⟨rfl, rfl⟩
  | some fr =>
    simp only [ht] at h
    cases hs : d.scope with
    | nil => rw [hs] at h; cases h
    | cons first rest =>
      rw [hs] at h
      cases h
      exact Or.inr ⟨first, rest, rfl, rfl⟩

theorem merge_delta_isSome (E : EngineState) (d : StateDelta) :
    (E.merge_delta d).isSome = true ↔ (topFrame E.scope = none ∨ d.scope ≠ []) := by
  unfold EngineState.merge_delta
  cases ht : topFrame E.scope with
  | none => simp [ht]
  | some fr =>
    cases hs : d.scope with
    | nil => simp [ht, hs]
    | cons first rest => simp [ht, hs]

theorem merge_delta_first_frame_only (E : EngineState) (d : StateDelta)
    (f : ScopeFrame) (r₁ r₂ : List ScopeFrame) :
    E.merge_delta { d with scope := f :: r₁ } =
      E.merge_delta { d with scope := f :: r₂ } := by
  unfold EngineState.merge_delta
  cases topFrame E.scope <;> rfl

/-! ### Invariants preserved by working-set call sequences -/

theorem applyOp_perm (ws : StateWorkingSet) (op : WsOp) :
    (applyOp ws op).2.permanent_state = ws.permanent_state := by
  cases op <;> rfl

theorem runOps_perm (ws : StateWorkingSet) (ops : List WsOp) :
    (runOps ws ops).permanent_state = ws.permanent_state := by
  induction ops generalizing ws with
  | nil => rfl
  | cons op rest ih => rw [runOps, ih, applyOp_perm]

theorem applyOp_scope_len (ws : StateWorkingSet) (op : WsOp) :
    (applyOp ws op).2.delta.scope.length = ws.delta.scope.length := by
  cases op <;>
    simp [applyOp, StateWorkingSet.add_file, StateWorkingSet.add_decl,
      StateWorkingSet.add_predecl, StateWorkingSet.add_variable,
      StateWorkingSet.add_block, StateWorkingSet.add_module, length_modifyLast]

theorem runOps_scope_len (ws : StateWorkingSet) (ops : List WsOp) :
    (runOps ws ops).delta.scope.length = ws.delta.scope.length := by
  induction ops generalizing ws with
  | nil => rfl
  | cons op rest ih => rw [runOps, ih, applyOp_scope_len]

theorem applyOp_chain (ws : StateWorkingSet) (op : WsOp)
    (h : chainFrom ws.permanent_state.next_span_start ws.delta.file_contents = true) :
    chainFrom (applyOp ws op).2.permanent_state.next_span_start
      (applyOp ws op).2.delta.file_contents = true := by
  cases op with
  | opFile nm c =>
    simp only [applyOp, StateWorkingSet.add_file, StateWorkingSet.next_span_start]
    exact chainFrom_append_one _ _ c h
  | opDecl c => exact h
  | opPredecl c => exact h
  | opVar n t => exact h
  | opBlock b => exact h
  | opModule n b => exact h

theorem runOps_chain (ws : StateWorkingSet) (ops : List WsOp)
    (h : chainFrom ws.permanent_state.next_span_start ws.delta.file_contents = true) :
    chainFrom (runOps ws ops).permanent_state.next_span_start
      (runOps ws ops).delta.file_contents = true := by
  induction ops generalizing ws with
  | nil => exact h
  | cons op rest ih => exact ih _ (applyOp_chain ws op h)

theorem applyOp_spans (ws : StateWorkingSet) (op : WsOp)
    (h : ws.delta.files.map spanOf = ws.delta.file_contents.map spanOf) :
    (applyOp ws op).2.delta.files.map spanOf =
      (applyOp ws op).2.delta.file_contents.map spanOf := by
  cases op with
  | opFile nm c =>
    simp only [applyOp, StateWorkingSet.add_file]
    simp [h, spanOf]
  | opDecl c => exact h
  | opPredecl c => exact h
  | opVar n t => exact h
  | opBlock b => exact h
  | opModule n b => exact h

theorem runOps_spans (ws : StateWorkingSet) (ops : List WsOp)
    (h : ws.delta.files.map spanOf = ws.delta.file_contents.map spanOf) :
    (runOps ws ops).delta.files.map spanOf =
      (runOps ws ops).delta.file_contents.map spanOf := by
  induction ops generalizing ws with
  | nil => exact h
  | cons op rest ih => exact ih _ (applyOp_spans ws op h)

theorem applyOp_assigned_id (ws : StateWorkingSet) (op : WsOp) :
    (applyOp ws op).1 = opCount ws op := by
  cases op with
  | opFile nm c =>
    simp [applyOp, StateWorkingSet.add_file, opCount, StateWorkingSet.num_files,
      EngineState.num_files, StateDelta.num_files]
    omega
  | opDecl c =>
    simp [applyOp, StateWorkingSet.add_decl, opCount, StateWorkingSet.num_decls,
      EngineState.num_decls, StateDelta.num_decls]
    omega
  | opPredecl c =>
    simp [applyOp, opCount, StateWorkingSet.num_decls, EngineState.num_decls,
      StateDelta.num_decls]
    omega
  | opVar n t =>
    simp [applyOp, StateWorkingSet.add_variable, opCount,
      StateWorkingSet.next_var_id, EngineState.num_vars]
  | opBlock b =>
    simp [applyOp, StateWorkingSet.add_block, opCount, StateWorkingSet.num_blocks,
      EngineState.num_blocks, StateDelta.num_blocks]
    omega
  | opModule n b =>
    simp [applyOp, StateWorkingSet.add_module, opCount, StateWorkingSet.num_blocks,
      EngineState.num_blocks, StateDelta.num_blocks]
    omega

/-! ### Lookup agreement between a working set and the merged state -/

theorem ws_get_decl_agree (E : EngineState) (ws : StateWorkingSet)
    (E' : EngineState) (hperm : ws.permanent_state = E)
    (hE' : E'.decls = E.decls ++ ws.delta.decls) (id : Nat) :
    ws.get_decl id = E'.get_decl id := by
  simp only [StateWorkingSet.get_decl, EngineState.get_decl,
    EngineState.num_decls, hperm, hE', List.getElem?_append]

theorem ws_get_var_agree (E : EngineState) (ws : StateWorkingSet)
    (E' : EngineState) (hperm : ws.permanent_state = E)
    (hE' : E'.vars = E.vars ++ ws.delta.vars) (id : Nat) :
    ws.get_variable id = E'.get_var id := by
  simp only [StateWorkingSet.get_variable, EngineState.get_var,
    EngineState.num_vars, hperm, hE', List.getElem?_append]

theorem ws_get_block_agree (E : EngineState) (ws : StateWorkingSet)
    (E' : EngineState) (hperm : ws.permanent_state = E)
    (hE' : E'.blocks = E.blocks ++ ws.delta.blocks) (id : Nat) :
    ws.get_block id = E'.get_block id := by
  simp only [StateWorkingSet.get_block, EngineState.get_block,
    EngineState.num_blocks, hperm, hE', List.getElem?_append]

theorem ws_get_filename_agree (E : EngineState) (ws : StateWorkingSet)
    (E' : EngineState) (hperm : ws.permanent_state = E)
    (hE' : E'.files = E.files ++ ws.delta.files) (id : Nat) :
    ws.get_filename id = E'.get_filename id := by
  simp only [StateWorkingSet.get_filename, EngineState.get_filename,
    StateWorkingSet.filesList, hperm, hE']

theorem ws_get_file_source_agree (E : EngineState) (ws : StateWorkingSet)
    (E' : EngineState) (hperm : ws.permanent_state = E)
    (hfc : chainFrom 0 E.file_contents = true)
    (hdch : chainFrom E.next_span_start ws.delta.file_contents = true)
    (hdsp : ws.delta.files.map spanOf = ws.delta.file_contents.map spanOf)
    (hE'f : E'.files = E.files ++ ws.delta.files)
    (hE'c : E'.file_contents = E.file_contents ++ ws.delta.file_contents)
    (id : Nat) (hid : E.num_files ≤ id) :
    ws.get_file_source id = E'.get_file_source id := by
  simp only [StateWorkingSet.get_file_source, EngineState.get_file_source,
    StateWorkingSet.filesList, hperm, hE'f]
  cases hf : (E.files ++ ws.delta.files)[id]? with
  | none => rfl
  | some f =>
    -- the located file is a delta file; find its contents entry
    have hlen : E.files.length ≤ id := by
      simpa [EngineState.num_files] using hid
    have hfd : ws.delta.files[id - E.files.length]? = some f := by
      rw [List.getElem?_append] at hf
      rw [if_neg (by omega)] at hf
      exact hf
    have hspan :
        (ws.delta.file_contents.map spanOf)[id - E.files.length]? =
          some (spanOf f) := by
      rw [← hdsp]
      simp [hfd]
    obtain ⟨e, he, hesp⟩ :
        ∃ e, ws.delta.file_contents[id - E.files.length]? = some e ∧
          spanOf e = spanOf f := by
      cases hfc' : ws.delta.file_contents[id - E.files.length]? with
      | none => simp [hfc'] at hspan
      | some e =>
        refine ⟨e, rfl, ?_⟩
        simp [hfc'] at hspan
        exact hspan
    have hmem : e ∈ ws.delta.file_contents := List.getElem?_mem he
    have hstart : E.next_span_start ≤ e.2.1 :=
      chainFrom_mem_start _ _ hdch e hmem
    have hstartf : E.next_span_start ≤ f.2.1 := by
      have : e.2.1 = f.2.1 := congrArg Prod.fst hesp
      omega
    -- both lookups land in the delta file contents
    have hws : ws.get_span_contents ⟨f.2.1, f.2.2⟩ =
        findContents ⟨f.2.1, f.2.2⟩ ws.delta.file_contents := by
      simp only [StateWorkingSet.get_span_contents, hperm]
      rw [if_pos hstartf]
    have hE'gsc : E'.get_span_contents ⟨f.2.1, f.2.2⟩ =
        findContents ⟨f.2.1, f.2.2⟩ ws.delta.file_contents := by
      simp only [EngineState.get_span_contents, hE'c]
      apply findContents_perm_delta E.next_span_start
      · intro p hp
        exact chainFrom_mem_end 0 E.file_contents hfc p hp
      · exact hdch
      · intro hnil
        rw [hnil] at he
        simp at he
      · exact hstartf
    change ws.get_span_contents ⟨f.2.1, f.2.2⟩ = E'.get_span_contents ⟨f.2.1, f.2.2⟩
    rw [hws, hE'gsc]

/-- Helper: the delta scope stack of a run over a fresh working set is
nonempty, hence the rendered delta merges. -/
theorem runOps_scope_ne_nil (E : EngineState) (ops : List WsOp) :
    (runOps (StateWorkingSet.new E) ops).delta.scope ≠ [] := by
  have h := runOps_scope_len (StateWorkingSet.new E) ops
  have : (runOps (StateWorkingSet.new E) ops).delta.scope.length = 1 := by
    simpa [StateWorkingSet.new] using h
  intro hnil
  rw [hnil] at this
  simp at this

/-! ### Claim theorems -/

/-- C1 (counterexample): the claim says every `add_*` call returns the id
`permanent.len(K) + delta.len(K)`; `add_predecl` instead returns the
previously bound pre-decl id — `none` on a fresh working set — while the
fresh entry is assigned id 0. -/
theorem add_predecl_return_is_previous :
    ((StateWorkingSet.new EngineState.new).add_predecl cmdFoo).1 = none ∧
    ((StateWorkingSet.new EngineState.new).add_predecl cmdFoo).1 ≠
      some (opCount (StateWorkingSet.new EngineState.new)
        (WsOp.opPredecl cmdFoo)) := by
  decide

/-- C1 (amended): for every sequence of `add_file`/`add_decl`/`add_predecl`/
`add_variable`/`add_block`/`add_module` calls on a working set created over a
well-formed permanent state, each call assigns (and, except for `add_predecl`,
which returns the previously bound pre-decl id, returns) the id
`permanent.len(K) + delta.len(K)` of its kind at the time of the call; the
rendered delta merges onto that permanent state, and every id then resolves
through the permanent-state lookups (`get_decl`, `get_var`, `get_block`,
`get_filename`, `get_file_source`) to the same entry it resolved to through
the working set. -/
theorem id_stability_after_merge (E : EngineState) (ops : List WsOp)
    (hE : engineWF E = true) : StabilityConcl E ops := by
  have hchain : chainFrom 0 E.file_contents = true := by
    simp only [engineWF, Bool.and_eq_true] at hE
    exact hE.1
  have hspanE : E.files.map spanOf = E.file_contents.map spanOf := by
    simp only [engineWF, Bool.and_eq_true, decide_eq_true_eq] at hE
    exact hE.2
  constructor
  · intro w op
    exact applyOp_assigned_id w op
  · have hperm : (runOps (StateWorkingSet.new E) ops).permanent_state = E :=
      runOps_perm (StateWorkingSet.new E) ops
    have hne := runOps_scope_ne_nil E ops
    have hsome : (E.merge_delta (runOps (StateWorkingSet.new E) ops).render).isSome = true :=
      (merge_delta_isSome E _).mpr (Or.inr hne)
    obtain ⟨E', hE'⟩ := Option.isSome_iff_exists.mp hsome
    obtain ⟨hfE, hcE, hdE, hvE, hbE⟩ := merge_delta_tables E _ E' hE'
    have hdch : chainFrom E.next_span_start
        (runOps (StateWorkingSet.new E) ops).delta.file_contents = true := by
      have h0 : chainFrom (StateWorkingSet.new E).permanent_state.next_span_start
          (StateWorkingSet.new E).delta.file_contents = true := rfl
      have := runOps_chain (StateWorkingSet.new E) ops h0
      rwa [runOps_perm] at this
    have hdsp : (runOps (StateWorkingSet.new E) ops).delta.files.map spanOf =
        (runOps (StateWorkingSet.new E) ops).delta.file_contents.map spanOf :=
      runOps_spans (StateWorkingSet.new E) ops rfl
    refine ⟨E', hE', ?_, ?_, ?_, ?_, ?_⟩
    · exact fun id => ws_get_decl_agree E _ E' hperm hdE id
    · exact fun id => ws_get_var_agree E _ E' hperm hvE id
    · exact fun id => ws_get_block_agree E _ E' hperm hbE id
    · exact fun id => ws_get_filename_agree E _ E' hperm hfE id
    · exact fun id hid =>
        ws_get_file_source_agree E _ E' hperm hchain hdch hdsp hfE hcE id hid

/-- C1 (witness): the amended statement instantiated on a one-file permanent
state and a seven-call sequence covering every op kind. -/
theorem id_stability_after_merge_witness :
    engineWF E3 = true ∧ StabilityConcl E3 opsW :=
  ⟨by decide, id_stability_after_merge E3 opsW (by decide)⟩

/-- C2 (counterexample): a delta rendered with two open scope frames (depth
2 ≠ 1) merges successfully — `merge_delta` signals no contract violation. -/
theorem merge_delta_accepts_extra_frames :
    ((StateWorkingSet.new EngineState.new).enter_scope.render).scope.length = 2 ∧
    (EngineState.new.merge_delta
        ((StateWorkingSet.new EngineState.new).enter_scope.render)).isSome = true := by
  decide

/-- C2 (amended): `merge_delta` performs no scope-depth check and signals no
`UnbalancedScope` error: it succeeds on every delta whose scope stack is
nonempty (any depth, not only depth exactly 1), its result depends only on
the first delta frame — additional frames are silently discarded — and a
successful merge appends the delta tables and folds exactly the first delta
frame into the back permanent frame (or leaves the scope untouched when the
permanent scope has no back frame); it fails, by the source's panic in
`Vec::remove(0)`, precisely when the delta scope stack is empty while the
permanent scope has a back frame. -/
theorem merge_delta_scope_behavior :
    (∀ (E : EngineState) (d : StateDelta),
      (E.merge_delta d).isSome = true ↔ (topFrame E.scope = none ∨ d.scope ≠ [])) ∧
    (∀ (E : EngineState) (d : StateDelta) (f : ScopeFrame)
      (r₁ r₂ : List ScopeFrame),
      E.merge_delta { d with scope := f :: r₁ } =
        E.merge_delta { d with scope := f :: r₂ }) ∧
    (∀ (E : EngineState) (d : StateDelta) (f : ScopeFrame)
      (rest : List ScopeFrame) (fr : ScopeFrame),
      d.scope = f :: rest → topFrame E.scope = some fr →
      E.merge_delta d = some
        { files := E.files ++ d.files
          file_contents := E.file_contents ++ d.file_contents
          vars := E.vars ++ d.vars
          decls := E.decls ++ d.decls
          blocks := E.blocks ++ d.blocks
          scope := modifyLast (fun last => mergeScopeFrame f last) E.scope }) ∧
    (∀ (E : EngineState) (d : StateDelta), topFrame E.scope = none →
      E.merge_delta d = some
        { files := E.files ++ d.files
          file_contents := E.file_contents ++ d.file_contents
          vars := E.vars ++ d.vars
          decls := E.decls ++ d.decls
          blocks := E.blocks ++ d.blocks
          scope := E.scope }) := by
  refine ⟨merge_delta_isSome, merge_delta_first_frame_only, ?_, ?_⟩
  · intro E d f rest fr hd ht
    unfold EngineState.merge_delta
    simp only [ht, hd]
  · intro E d ht
    unfold EngineState.merge_delta
    simp only [ht]

/-- C2 (witness): the amended statement evaluated at concrete inputs — the
empty-scope delta over the fresh engine fails to merge, a second delta frame
does not change the merge result, and the depth-2 merge produces exactly the
fold of the first frame into the root permanent frame. -/
theorem merge_delta_scope_behavior_witness :
    ((EngineState.new.merge_delta emptyDelta).isSome = true ↔
      (topFrame EngineState.new.scope = none ∨ emptyDelta.scope ≠ [])) ∧
    EngineState.new.merge_delta twoFrameDelta =
      EngineState.new.merge_delta { emptyDelta with scope := ScopeFrame.new :: [] } ∧
    (twoFrameDelta.scope = ScopeFrame.new :: [ScopeFrame.new] ∧
      topFrame EngineState.new.scope = some ScopeFrame.new) ∧
    EngineState.new.merge_delta twoFrameDelta =
      some
        { files := EngineState.new.files ++ twoFrameDelta.files
          file_contents := EngineState.new.file_contents ++ twoFrameDelta.file_contents
          vars := EngineState.new.vars ++ twoFrameDelta.vars
          decls := EngineState.new.decls ++ twoFrameDelta.decls
          blocks := EngineState.new.blocks ++ twoFrameDelta.blocks
          scope := modifyLast (fun last => mergeScopeFrame ScopeFrame.new last)
            EngineState.new.scope } :=
  ⟨merge_delta_scope_behavior.1 EngineState.new emptyDelta,
    merge_delta_scope_behavior.2.1 EngineState.new emptyDelta ScopeFrame.new
      [ScopeFrame.new] [],
    ⟨rfl, rfl⟩,
    merge_delta_scope_behavior.2.2.1 EngineState.new twoFrameDelta ScopeFrame.new
      [ScopeFrame.new] ScopeFrame.new rfl rfl⟩

/-- The first component of the delta loop is the plain first-match search
(the threaded visibility does not influence it). -/
theorem findDeclDeltaLoop_fst_eq (n : Bytes) (vis : Visibility)
    (l : List ScopeFrame) :
    (findDeclDeltaLoop n vis l).1 = deltaFirstMatch n l := by
  induction l generalizing vis with
  | nil => rfl
  | cons f rest ih =>
    cases hp : f.predecls.find? n with
    | some id => simp only [findDeclDeltaLoop, deltaFirstMatch, hp]
    | none =>
      cases hd : f.decls.find? n with
      | some id => simp only [findDeclDeltaLoop, deltaFirstMatch, hp, hd]
      | none =>
        simp only [findDeclDeltaLoop, deltaFirstMatch, hp, hd]
        exact ih _

/-- Threading the visibility accumulator through the permanent walk is the
same as recomputing the accumulated visibility from scratch at each frame. -/
theorem findDeclPerm_eq_permSpecGo (n : Bytes) (l base : List ScopeFrame) :
    findDeclPerm n (accumVisList Visibility.new base) l = permSpecGo n base l := by
  induction l generalizing base with
  | nil => rfl
  | cons f rest ih =>
    cases hd : f.decls.find? n with
    | some id =>
      simp only [findDeclPerm, permSpecGo, hd, ← accumVisList_append_one]
      by_cases hv : (accumVisList Visibility.new (base ++ [f])).is_id_visible id
      · rw [if_pos hv, if_pos hv]
      · rw [if_neg hv, if_neg hv]
        exact ih (base ++ [f])
    | none =>
      simp only [findDeclPerm, permSpecGo, hd, ← accumVisList_append_one]
      exact ih (base ++ [f])

/-- C3: the working set's `find_decl` follows exactly the documented order —
delta frames innermost-first with `predecls` before `decls` and no visibility
filtering, then permanent frames innermost-first under accumulated visibility;
and visibility accumulation never overwrites an entry already recorded by an
inner frame. -/
theorem find_decl_resolution_order :
    (∀ (ws : StateWorkingSet) (n : Bytes),
      ws.find_decl n = findDeclSpecOrder ws n) ∧
    (∀ (v w : Visibility) (id : DeclId) (b : Bool),
      v.ids id = some b → (v.append w).ids id = some b) := by
  constructor
  · intro ws n
    unfold StateWorkingSet.find_decl findDeclSpecOrder
    cases hpair : findDeclDeltaLoop n Visibility.new ws.delta.scope.reverse with
    | mk a b =>
      have ha : a = deltaFirstMatch n ws.delta.scope.reverse := by
        have h := findDeclDeltaLoop_fst_eq n Visibility.new ws.delta.scope.reverse
        rw [hpair] at h
        exact h
      cases a with
      | some id =>
        rw [← ha]
      | none =>
        rw [← ha]
        have hsnd : b = accumVisList Visibility.new ws.delta.scope.reverse := by
          have h := findDeclDeltaLoop_snd_of_none n Visibility.new
            ws.delta.scope.reverse (by rw [hpair])
          rw [hpair] at h
          exact h
        subst hsnd
        exact findDeclPerm_eq_permSpecGo n ws.permanent_state.scope.reverse
          ws.delta.scope.reverse
  · intro v w id b h
    exact append_ids_some v w id b h

/-- C3 (witness): the refinement evaluated on a concrete working set and the
no-overwrite law evaluated on a concrete overlay pair. -/
theorem find_decl_resolution_order_witness :
    wsOv.find_decl fooB = findDeclSpecOrder wsOv fooB ∧
    (Visibility.new.use_id 0).ids 0 = some true ∧
    ((Visibility.new.use_id 0).append (Visibility.new.hide_id 0)).ids 0 = some true :=
  ⟨find_decl_resolution_order.1 wsOv fooB, rfl,
    find_decl_resolution_order.2 (Visibility.new.use_id 0)
      (Visibility.new.hide_id 0) 0 true rfl⟩

/-- C4 (counterexample): on a working set that re-activated the permanent
`foo` (id 0) through an overlay, `hide_decl` removes only the delta binding
and returns `Some 0`, yet `find_decl` still resolves `foo` to 0 through the
still-visible permanent frame. -/
theorem hide_decl_after_overlay_still_found :
    (wsOv.hide_decl fooB).map (fun p => (p.1, p.2.find_decl fooB)) =
      some (some 0, some 0) := by
  decide

/-- C4 (amended): if `hide_decl n` returns `Some id`, the immediately
following `find_decl n` does not return `id`, provided `id` is not reachable
for `n` through another binding: no remaining delta frame binds `n` to `id`
(in `predecls` or `decls`), and — when the hide removed a delta binding — no
permanent frame binds `n` to `id` either. -/
theorem hide_decl_monotonic (ws : StateWorkingSet) (n : Bytes) (i : DeclId)
    (res : StateWorkingSet)
    (h : ws.hide_decl n = some (some i, res))
    (hpre : ∀ f ∈ res.delta.scope, f.predecls.find? n ≠ some i)
    (hdec : ∀ f ∈ res.delta.scope, f.decls.find? n ≠ some i)
    (hperm : (∃ f ∈ ws.delta.scope, (f.decls.find? n).isSome = true) →
      ∀ f ∈ ws.permanent_state.scope, f.decls.find? n ≠ some i) :
    res.find_decl n ≠ some i := by
  cases hloop : hideDeltaLoop n ws.delta.scope.reverse with
  | some p =>
    obtain ⟨j, l'⟩ := p
    simp only [StateWorkingSet.hide_decl, hloop, Option.some.injEq,
      Prod.mk.injEq] at h
    obtain ⟨hj, hres⟩ := h
    -- the permanent branch hypothesis is armed: some delta frame bound n
    obtain ⟨g, hg, hgd⟩ := hideDeltaLoop_some_src n ws.delta.scope.reverse j l' hloop
    have hants : ∃ f ∈ ws.delta.scope, (f.decls.find? n).isSome = true :=
      ⟨g, List.mem_reverse.mp hg, by rw [hgd]; rfl⟩
    have hpermfacts := hperm hants
    subst hj
    subst hres
    unfold StateWorkingSet.find_decl
    cases hpair : findDeclDeltaLoop n Visibility.new
        (StateWorkingSet.mk ws.permanent_state
          { ws.delta with scope := l'.reverse }).delta.scope.reverse with
    | mk a b =>
      cases a with
      | some v =>
        simp only
        intro hv
        obtain rfl := Option.some.inj hv
        obtain ⟨f, hf, hor⟩ := findDeclDeltaLoop_some_ex n Visibility.new _ v (by rw [hpair])
        have hfmem := List.mem_reverse.mp hf
        rcases hor with hp | hd
        · exact hpre f hfmem hp
        · exact hdec f hfmem hd
      | none =>
        simp only
        intro hv
        obtain ⟨f, hf, hfd⟩ := findDeclPerm_some_ex n b _ j hv
        exact hpermfacts f (List.mem_reverse.mp hf) hfd
  | none =>
    cases ht : topFrame ws.delta.scope with
    | none =>
      simp only [StateWorkingSet.hide_decl, hloop, ht] at h
      exact Option.noConfusion h
    | some fr =>
      cases hploop : hidePermLoop n
          (accumVisList Visibility.new ws.delta.scope.reverse)
          ws.permanent_state.scope.reverse with
      | none =>
        simp only [StateWorkingSet.hide_decl, hloop, ht, hploop,
          Option.some.injEq, Prod.mk.injEq] at h
        exact Option.noConfusion h.1
      | some j =>
        simp only [StateWorkingSet.hide_decl, hloop, ht, hploop,
          Option.some.injEq, Prod.mk.injEq] at h
        obtain ⟨hj, hres⟩ := h
        subst hj
        -- the top delta frame now records the visibility flip for the id
        obtain ⟨r', hrev⟩ : ∃ r', ws.delta.scope.reverse = fr :: r' := by
          unfold topFrame at ht
          cases hc : ws.delta.scope.reverse with
          | nil => rw [hc] at ht; simp at ht
          | cons x r =>
            rw [hc] at ht
            simp only [List.head?] at ht
            exact ⟨r, by rw [Option.some.injEq] at ht; rw [ht]⟩
        subst hres
        unfold StateWorkingSet.find_decl
        have hscope := modifyLast_reverse_cons
          (fun f => { f with visibility := f.visibility.hide_id j })
          ws.delta.scope fr r' hrev
        cases hpair : findDeclDeltaLoop n Visibility.new
            (modifyLast (fun f => { f with visibility := f.visibility.hide_id j })
              ws.delta.scope).reverse with
        | mk a b =>
          cases a with
          | some v =>
            simp only
            intro hv
            obtain rfl := Option.some.inj hv
            obtain ⟨f, hf, hor⟩ :=
              findDeclDeltaLoop_some_ex n Visibility.new _ v (by rw [hpair])
            have hfmem := List.mem_reverse.mp hf
            rcases hor with hp | hd
            · exact hpre f hfmem hp
            · exact hdec f hfmem hd
          | none =>
            simp only
            -- the flip recorded in the top frame blocks the id through the walk
            have hfst : (findDeclDeltaLoop n Visibility.new
                (modifyLast (fun f => { f with visibility := f.visibility.hide_id j })
                  ws.delta.scope).reverse).1 = none := by
              rw [hpair]
            have hsnd := findDeclDeltaLoop_snd_of_none n Visibility.new _ hfst
            rw [hpair] at hsnd
            simp only at hsnd
            subst hsnd
            rw [hscope]
            have hflip : ((Visibility.new.append
                ({ fr with visibility := fr.visibility.hide_id j }).visibility).ids j) =
                some false := by
              simp [Visibility.append, Visibility.new, Visibility.hide_id]
            have hacc : (accumVisList Visibility.new
                ({ fr with visibility := fr.visibility.hide_id j } :: r')).ids j =
                some false := by
              simp only [accumVisList, List.foldl_cons]
              exact accumVisList_pres _ r' j false hflip
            exact findDeclPerm_blocked n _ _ j hacc

/-- C4 (witness): on a working set with a single delta declaration of `foo`
over an empty engine, hiding `foo` removes the binding and the subsequent
lookup no longer returns its id. -/
theorem hide_decl_monotonic_witness :
    wsD.hide_decl fooB = some (some 0, resD) ∧ resD.find_decl fooB ≠ some 0 := by
  refine ⟨rfl, hide_decl_monotonic wsD fooB 0 resD rfl ?_ ?_ ?_⟩
  · intro f hf
    cases hf with
    | head => decide
    | tail _ hf' => cases hf'
  · intro f hf
    cases hf with
    | head => decide
    | tail _ hf' => cases hf'
  · intro hex f hf
    cases hf with
    | head => decide
    | tail _ hf' => cases hf'

/-- Permanent states built by `add_file` calls have contiguous spans. -/
theorem addFiles_chain (E : EngineState) (fl : List (String × Bytes))
    (h : chainFrom 0 E.file_contents = true) :
    chainFrom 0 (addFiles E fl).file_contents = true := by
  induction fl generalizing E with
  | nil => exact h
  | cons p rest ih =>
    obtain ⟨nm, c⟩ := p
    exact ih (E.add_file nm c).2 (chainFrom_append_one 0 E.file_contents c h)

/-- C5 (counterexample): one empty permanent file owns the range `[0, 0)`,
but reading that full range through a working set with an empty delta fails
(the working set sends spans at the permanent end cursor to the delta
table). -/
theorem ws_span_lookup_empty_file_boundary :
    E0f.file_contents = [([], 0, 0)] ∧
    E0f.get_span_contents ⟨0, 0⟩ = some [] ∧
    (StateWorkingSet.new E0f).get_span_contents ⟨0, 0⟩ = none := by
  decide

/-- C5 (amended): after any sequence of `add_file` calls on the permanent
state and a working set over it, every recorded range has the length of its
buffer and the ranges are contiguous from offset 0; each working-set
`add_file` stamps its span at the max of the permanent and delta end cursors;
a file's own full range read back through the state that registered it yields
a buffer of length `end - start`, and permanent ranges read through the
working set do too, except an empty permanent file sitting exactly at the
permanent end cursor when the delta holds no file. -/
theorem span_coverage (fl : List (String × Bytes)) (ops : List WsOp) :
    SpanCoverageConcl fl ops := by
  unfold SpanCoverageConcl
  have hEc : chainFrom 0 (addFiles EngineState.new fl).file_contents = true :=
    addFiles_chain EngineState.new fl rfl
  have hperm : (runOps (StateWorkingSet.new (addFiles EngineState.new fl)) ops).permanent_state =
      addFiles EngineState.new fl :=
    runOps_perm (StateWorkingSet.new (addFiles EngineState.new fl)) ops
  have hdch : chainFrom (addFiles EngineState.new fl).next_span_start
      (runOps (StateWorkingSet.new (addFiles EngineState.new fl)) ops).delta.file_contents =
      true := by
    have h0 : chainFrom
        (StateWorkingSet.new (addFiles EngineState.new fl)).permanent_state.next_span_start
        (StateWorkingSet.new (addFiles EngineState.new fl)).delta.file_contents = true := rfl
    have := runOps_chain (StateWorkingSet.new (addFiles EngineState.new fl)) ops h0
    rwa [hperm] at this
  have hnss : (addFiles EngineState.new fl).next_span_start =
      nextCursor 0 (addFiles EngineState.new fl).file_contents := rfl
  have hall : chainFrom 0
      ((addFiles EngineState.new fl).file_contents ++
        (runOps (StateWorkingSet.new (addFiles EngineState.new fl)) ops).delta.file_contents) =
      true := by
    apply chainFrom_append_chain 0 _ _ hEc
    rw [← hnss]
    exact hdch
  refine ⟨hall, ?_, ?_, ?_, ?_, ?_⟩
  · intro e he
    exact chainFrom_mem_len 0 _ hall e he
  · -- the working-set cursor is the max of the two cursors
    cases hfc : (runOps (StateWorkingSet.new (addFiles EngineState.new fl)) ops).delta.file_contents with
    | nil =>
      simp only [StateWorkingSet.next_span_start, hperm, hfc, nextCursor, Nat.max_zero]
    | cons e r =>
      have hle : (addFiles EngineState.new fl).next_span_start ≤
          nextCursor (addFiles EngineState.new fl).next_span_start (e :: r) := by
        have := chainFrom_le (addFiles EngineState.new fl).next_span_start (e :: r)
          (by rw [← hfc]; exact hdch)
        exact this
      simp only [StateWorkingSet.next_span_start, hperm, hfc]
      simp only [nextCursor] at hle ⊢
      exact (Nat.max_eq_right hle).symm
  · intro e he
    exact chainFrom_cover 0 _ hEc e he
  · intro e he
    have hstart : (addFiles EngineState.new fl).next_span_start ≤ e.2.1 :=
      chainFrom_mem_start _ _ hdch e he
    have hgsc : (runOps (StateWorkingSet.new (addFiles EngineState.new fl)) ops).get_span_contents
        ⟨e.2.1, e.2.2⟩ =
        findContents ⟨e.2.1, e.2.2⟩
          (runOps (StateWorkingSet.new (addFiles EngineState.new fl)) ops).delta.file_contents := by
      simp only [StateWorkingSet.get_span_contents, hperm]
      rw [if_pos hstart]
    rw [hgsc]
    exact chainFrom_cover _ _ hdch e he
  · intro e he hcase
    by_cases hlt : e.2.1 < (addFiles EngineState.new fl).next_span_start
    · have hgsc : (runOps (StateWorkingSet.new (addFiles EngineState.new fl)) ops).get_span_contents
          ⟨e.2.1, e.2.2⟩ =
          (addFiles EngineState.new fl).get_span_contents ⟨e.2.1, e.2.2⟩ := by
        simp only [StateWorkingSet.get_span_contents, hperm]
        rw [if_neg (by omega)]
      rw [hgsc]
      exact chainFrom_cover 0 _ hEc e he
    · -- the file is an empty file at the cursor; a nonempty delta covers it
      have hne : (runOps (StateWorkingSet.new (addFiles EngineState.new fl)) ops).delta.file_contents ≠ [] := by
        rcases hcase with hc | hc
        · exact absurd hc hlt
        · exact hc
      have hend : e.2.2 ≤ (addFiles EngineState.new fl).next_span_start := by
        rw [hnss]
        exact chainFrom_mem_end 0 _ hEc e he
      have hlen : e.2.2 = e.2.1 + e.1.length := chainFrom_mem_len 0 _ hEc e he
      have hdeg : e.2.1 = (addFiles EngineState.new fl).next_span_start ∧ e.2.2 = e.2.1 := by
        omega
      cases hfc : (runOps (StateWorkingSet.new (addFiles EngineState.new fl)) ops).delta.file_contents with
      | nil => exact absurd hfc hne
      | cons d r =>
        have hd := hdch
        rw [hfc] at hd
        simp only [chainFrom, Bool.and_eq_true, beq_iff_eq] at hd
        obtain ⟨⟨hd1, hd2⟩, _⟩ := hd
        have hgsc : (runOps (StateWorkingSet.new (addFiles EngineState.new fl)) ops).get_span_contents
            ⟨e.2.1, e.2.2⟩ =
            findContents ⟨e.2.1, e.2.2⟩ (d :: r) := by
          simp only [StateWorkingSet.get_span_contents, hperm]
          rw [if_pos (by omega), hfc]
        have hcd : containsSpan d ⟨e.2.1, e.2.2⟩ = true := by
          simp only [containsSpan, Bool.and_eq_true, decide_eq_true_eq]
          omega
        refine ⟨[], ?_, by simp only [List.length_nil]; omega⟩
        rw [hgsc]
        have hz : e.2.2 - e.2.1 = 0 := by omega
        simp [findContents, hcd, sliceOf, hz]

/-- C5 (witness): the amended statement instantiated on two permanent files
(one empty) and a working set adding one more. -/
theorem span_coverage_witness :
    SpanCoverageConcl [("a", [10, 11]), ("b", [])]
      [WsOp.opFile "c" [1], WsOp.opDecl cmdFoo] :=
  span_coverage [("a", [10, 11]), ("b", [])] [WsOp.opFile "c" [1], WsOp.opDecl cmdFoo]

/-- C6 (counterexample): the size-3 file's range `[0, 3)` contains the empty
span `[3, 3)` and the permanent lookup returns its (empty) slice, but the same
lookup through a working set with an empty delta fails. -/
theorem ws_span_containment_boundary :
    containsSpan ([97, 98, 99], 0, 3) ⟨3, 3⟩ = true ∧
    E3.file_contents = [([97, 98, 99], 0, 3)] ∧
    E3.get_span_contents ⟨3, 3⟩ = some [] ∧
    (StateWorkingSet.new E3).get_span_contents ⟨3, 3⟩ = none := by
  decide

/-- C6 (amended): permanent `get_span_contents` succeeds exactly when some
file entry's range contains the span; working-set `get_span_contents`
consults only the delta table when the span starts at or past the permanent
end cursor and only the permanent table otherwise (so an empty span at
exactly the boundary may fail although a permanent range contains it); the
two-file example behaves as the spec states. -/
theorem get_span_contents_containment :
    (∀ (E : EngineState) (sp : Span),
      (E.get_span_contents sp).isSome = true ↔
        ∃ e ∈ E.file_contents, containsSpan e sp = true) ∧
    (∀ (ws : StateWorkingSet) (sp : Span),
      (ws.get_span_contents sp).isSome = true ↔
        if ws.permanent_state.next_span_start ≤ sp.start then
          ∃ e ∈ ws.delta.file_contents, containsSpan e sp = true
        else
          ∃ e ∈ ws.permanent_state.file_contents, containsSpan e sp = true) ∧
    E35.get_span_contents ⟨3, 8⟩ = some [100, 101, 102, 103, 104] ∧
    E35.get_span_contents ⟨2, 6⟩ = none := by
  refine ⟨?_, ?_, by decide, by decide⟩
  · intro E sp
    exact findContents_isSome_iff sp E.file_contents
  · intro ws sp
    unfold StateWorkingSet.get_span_contents
    by_cases hb : ws.permanent_state.next_span_start ≤ sp.start
    · rw [if_pos hb, if_pos hb]
      exact findContents_isSome_iff sp ws.delta.file_contents
    · rw [if_neg hb, if_neg hb]
      exact findContents_isSome_iff sp ws.permanent_state.file_contents

/-- C6 (witness): both containment characterizations evaluated at the
boundary span of the one-file state. -/
theorem get_span_contents_containment_witness :
    ((E3.get_span_contents ⟨3, 3⟩).isSome = true ↔
      ∃ e ∈ E3.file_contents, containsSpan e ⟨3, 3⟩ = true) ∧
    (((StateWorkingSet.new E3).get_span_contents ⟨3, 3⟩).isSome = true ↔
      if (StateWorkingSet.new E3).permanent_state.next_span_start ≤ 3 then
        ∃ e ∈ (StateWorkingSet.new E3).delta.file_contents, containsSpan e ⟨3, 3⟩ = true
      else
        ∃ e ∈ (StateWorkingSet.new E3).permanent_state.file_contents,
          containsSpan e ⟨3, 3⟩ = true) :=
  ⟨get_span_contents_containment.1 E3 ⟨3, 3⟩,
    get_span_contents_containment.2.1 (StateWorkingSet.new E3) ⟨3, 3⟩⟩

/-! ### Pre-declaration lemmas -/

theorem NMap.find?_insert_self {α : Type} (m : NMap α) (k : Bytes) (v : α) :
    (m.insert k v).find? k = some v := by
  simp [NMap.insert, NMap.find?]

theorem NMap.find?_erase_self {α : Type} (m : NMap α) (k : Bytes) :
    (m.erase k).find? k = none := by
  simp [NMap.erase, NMap.find?]

theorem scope_rev_cons_of_ne_nil (l : List ScopeFrame) (h : l ≠ []) :
    ∃ a r, l.reverse = a :: r := by
  cases hc : l.reverse with
  | nil => exact absurd (by simpa using congrArg List.reverse hc) h
  | cons a r => exact ⟨a, r, rfl⟩

theorem find_decl_top_predecl (ws : StateWorkingSet) (n : Bytes) (v : DeclId)
    (a : ScopeFrame) (r : List ScopeFrame)
    (hrev : ws.delta.scope.reverse = a :: r)
    (hp : a.predecls.find? n = some v) : ws.find_decl n = some v := by
  unfold StateWorkingSet.find_decl
  rw [hrev]
  simp [findDeclDeltaLoop, hp]

theorem find_decl_top_decl (ws : StateWorkingSet) (n : Bytes) (v : DeclId)
    (a : ScopeFrame) (r : List ScopeFrame)
    (hrev : ws.delta.scope.reverse = a :: r)
    (hp : a.predecls.find? n = none) (hd : a.decls.find? n = some v) :
    ws.find_decl n = some v := by
  unfold StateWorkingSet.find_decl
  rw [hrev]
  simp [findDeclDeltaLoop, hp, hd]

theorem add_predecl_prev (ws : StateWorkingSet) (c : Command) :
    (ws.add_predecl c).1 =
      (topFrame ws.delta.scope).bind (fun f => f.predecls.find? (strBytes c.name)) := rfl

theorem add_predecl_num_decls (ws : StateWorkingSet) (c : Command) :
    (ws.add_predecl c).2.num_decls = ws.num_decls + 1 := by
  simp [StateWorkingSet.add_predecl, StateWorkingSet.num_decls,
    StateDelta.num_decls, EngineState.num_decls]
  omega

theorem add_predecl_scope_rev (ws : StateWorkingSet) (c : Command)
    (a : ScopeFrame) (r : List ScopeFrame)
    (hrev : ws.delta.scope.reverse = a :: r) :
    (ws.add_predecl c).2.delta.scope.reverse =
      { a with predecls := a.predecls.insert (strBytes c.name) ws.num_decls } :: r := by
  have harith : (ws.delta.decls ++ [c]).length + ws.permanent_state.decls.length - 1 =
      ws.delta.decls.length + ws.permanent_state.decls.length := by
    simp [List.length_append]
  simp only [StateWorkingSet.add_predecl, StateWorkingSet.num_decls,
    StateDelta.num_decls, EngineState.num_decls]
  rw [modifyLast_reverse_cons _ _ a r hrev]
  rw [harith]

theorem merge_predecl_of_top (ws : StateWorkingSet) (n : Bytes) (v : DeclId)
    (a : ScopeFrame) (r : List ScopeFrame)
    (hrev : ws.delta.scope.reverse = a :: r)
    (hp : a.predecls.find? n = some v) :
    (ws.merge_predecl n).1 = some v ∧
    (ws.merge_predecl n).2.delta.scope.reverse =
      { a with
        predecls := a.predecls.erase n
        decls := a.decls.insert n v
        visibility := a.visibility.use_id v } :: r := by
  have htop : topFrame ws.delta.scope = some a := by
    unfold topFrame
    rw [hrev]
    rfl
  have hb : (topFrame ws.delta.scope).bind (fun f => f.predecls.find? n) = some v := by
    rw [htop]
    exact hp
  constructor
  · simp only [StateWorkingSet.merge_predecl, hb]
  · simp only [StateWorkingSet.merge_predecl, hb]
    exact modifyLast_reverse_cons _ _ a r hrev

theorem merge_predecl_of_none (ws : StateWorkingSet) (m : Bytes)
    (hm : (topFrame ws.delta.scope).bind (fun f => f.predecls.find? m) = none) :
    (ws.merge_predecl m).1 = none := by
  simp only [StateWorkingSet.merge_predecl, hm]

/-- C7: pre-decl promotion. After `add_predecl c` binds `c`'s name with the
fresh id `num_decls`, `find_decl` already returns that id; `merge_predecl`
moves the binding from `predecls` to `decls` of the top frame, marks the id
visible and returns it, and `find_decl` still returns it; `add_predecl` of
the same name again returns the previously bound id while re-binding the
name to the next fresh id; `merge_predecl` with no pre-decl for a name in
the top frame returns nothing. -/
theorem predecl_promotion (ws : StateWorkingSet) (c c₂ : Command) (m : Bytes)
    (h : ws.delta.scope ≠ [])
    (hname : c₂.name = c.name)
    (hm : (topFrame ws.delta.scope).bind (fun f => f.predecls.find? m) = none) :
    (ws.add_predecl c).2.find_decl (strBytes c.name) = some ws.num_decls ∧
    ((ws.add_predecl c).2.merge_predecl (strBytes c.name)).1 = some ws.num_decls ∧
    ((ws.add_predecl c).2.merge_predecl (strBytes c.name)).2.find_decl
        (strBytes c.name) = some ws.num_decls ∧
    (topFrame ((ws.add_predecl c).2.merge_predecl (strBytes c.name)).2.delta.scope).map
        (fun f => (f.predecls.find? (strBytes c.name),
          f.decls.find? (strBytes c.name), f.visibility.ids ws.num_decls)) =
      some (none, some ws.num_decls, some true) ∧
    ((ws.add_predecl c).2.add_predecl c₂).1 = some ws.num_decls ∧
    (topFrame ((ws.add_predecl c).2.add_predecl c₂).2.delta.scope).map
        (fun f => f.predecls.find? (strBytes c.name)) =
      some (some (ws.num_decls + 1)) ∧
    (ws.merge_predecl m).1 = none := by
  obtain ⟨a, r, hrev⟩ := scope_rev_cons_of_ne_nil ws.delta.scope h
  have hnb : strBytes c₂.name = strBytes c.name := by rw [hname]
  have hs₁ := add_predecl_scope_rev ws c a r hrev
  set a₁ : ScopeFrame :=
    { a with predecls := a.predecls.insert (strBytes c.name) ws.num_decls } with ha₁
  have hp₁ : a₁.predecls.find? (strBytes c.name) = some ws.num_decls := by
    rw [ha₁]
    exact NMap.find?_insert_self a.predecls (strBytes c.name) ws.num_decls
  obtain ⟨hmp, hs₂⟩ := merge_predecl_of_top (ws.add_predecl c).2 (strBytes c.name)
    ws.num_decls a₁ r hs₁ hp₁
  set a₂ : ScopeFrame :=
    { a₁ with
      predecls := a₁.predecls.erase (strBytes c.name)
      decls := a₁.decls.insert (strBytes c.name) ws.num_decls
      visibility := a₁.visibility.use_id ws.num_decls } with ha₂
  refine ⟨find_decl_top_predecl _ _ _ a₁ r hs₁ hp₁, hmp, ?_, ?_, ?_, ?_,
    merge_predecl_of_none ws m hm⟩
  · refine find_decl_top_decl _ _ _ a₂ r hs₂ ?_ ?_
    · rw [ha₂]
      exact NMap.find?_erase_self a₁.predecls (strBytes c.name)
    · rw [ha₂]
      exact NMap.find?_insert_self a₁.decls (strBytes c.name) ws.num_decls
  · have htop₂ : topFrame ((ws.add_predecl c).2.merge_predecl
        (strBytes c.name)).2.delta.scope = some a₂ := by
      unfold topFrame
      rw [hs₂]
      rfl
    rw [htop₂]
    simp only [Option.map_some']
    simp [ha₂, NMap.find?_erase_self, NMap.find?_insert_self, Visibility.use_id]
  · rw [add_predecl_prev]
    have htop₁ : topFrame (ws.add_predecl c).2.delta.scope = some a₁ := by
      unfold topFrame
      rw [hs₁]
      rfl
    rw [htop₁, hnb]
    exact hp₁
  · have hs₆ := add_predecl_scope_rev (ws.add_predecl c).2 c₂ a₁ r hs₁
    have htop₆ : topFrame ((ws.add_predecl c).2.add_predecl c₂).2.delta.scope = some { a₁ with predecls := a₁.predecls.insert (strBytes c₂.name) (ws.add_predecl c).2.num_decls } := by
      unfold topFrame
      rw [hs₆]
      rfl
    rw [htop₆]
    simp only [Option.map_some']
    rw [hnb, add_predecl_num_decls]
    rw [NMap.find?_insert_self]

/-- C7 (witness): the promotion scenario run on a fresh working set with two
`foo` commands and the absent name `bar`. -/
theorem predecl_promotion_witness :
    ((StateWorkingSet.new EngineState.new).delta.scope ≠ [] ∧
      cmdFoo2.name = cmdFoo.name ∧
      (topFrame (StateWorkingSet.new EngineState.new).delta.scope).bind
        (fun f => f.predecls.find? (strBytes cmdBar.name)) = none) ∧
    ((StateWorkingSet.new EngineState.new).add_predecl cmdFoo).2.find_decl
      (strBytes cmdFoo.name) = some (StateWorkingSet.new EngineState.new).num_decls := by
  refine ⟨⟨by simp [StateWorkingSet.new], rfl, rfl⟩, ?_⟩
  exact (predecl_promotion (StateWorkingSet.new EngineState.new) cmdFoo cmdFoo2
    (strBytes cmdBar.name) (by simp [StateWorkingSet.new]) rfl rfl).1

/-- C8: file round-trip. For every `(name, bytes)` registered through
`add_file` — on the permanent state, or on a working set (read back through
the working set and, after commit of the rendered delta, through the merged
permanent state) — `get_filename` returns the name and `get_file_source`
returns the byte slice the source would decode. -/
theorem file_round_trip (E : EngineState) (ws : StateWorkingSet) (nm : String)
    (bs : Bytes)
    (hE : engineWF E = true)
    (hperm : ws.permanent_state = E)
    (hdch : chainFrom E.next_span_start ws.delta.file_contents = true) :
    ((E.add_file nm bs).2.get_filename (E.add_file nm bs).1 = nm ∧
      (E.add_file nm bs).2.get_file_source (E.add_file nm bs).1 = some bs) ∧
    ((ws.add_file nm bs).2.get_filename (ws.add_file nm bs).1 = nm ∧
      (ws.add_file nm bs).2.get_file_source (ws.add_file nm bs).1 = some bs) ∧
    (∀ E', E.merge_delta (ws.add_file nm bs).2.render = some E' →
      E'.get_filename (ws.add_file nm bs).1 = nm ∧
      E'.get_file_source (ws.add_file nm bs).1 = some bs) := by
  have hchain : chainFrom 0 E.file_contents = true := by
    simp only [engineWF, Bool.and_eq_true] at hE
    exact hE.1
  have hnss : ws.next_span_start = nextCursor E.next_span_start ws.delta.file_contents := by
    rw [StateWorkingSet.next_span_start, hperm]
  have hcursor : E.next_span_start ≤ ws.next_span_start := by
    rw [hnss]
    exact chainFrom_le E.next_span_start ws.delta.file_contents hdch
  refine ⟨⟨?_, ?_⟩, ⟨?_, ?_⟩, ?_⟩
  · -- permanent filename
    have hid : (E.add_file nm bs).1 = E.files.length := by
      simp [EngineState.add_file, EngineState.num_files]
    rw [hid]
    simp [EngineState.add_file, EngineState.get_filename]
  · -- permanent file source
    have hid : (E.add_file nm bs).1 = E.files.length := by
      simp [EngineState.add_file, EngineState.num_files]
    rw [hid]
    simp only [EngineState.add_file, EngineState.get_file_source]
    rw [List.getElem?_append_right (by omega)]
    simp only [Nat.sub_self, List.getElem?_cons_zero]
    exact findContents_last_exact 0 E.file_contents bs hchain
  · -- working-set filename
    have hid : (ws.add_file nm bs).1 =
        E.files.length + ws.delta.files.length := by
      simp [StateWorkingSet.add_file, StateWorkingSet.num_files,
        StateDelta.num_files, EngineState.num_files, hperm]
      omega
    rw [hid]
    simp only [StateWorkingSet.add_file, StateWorkingSet.get_filename,
      StateWorkingSet.filesList, hperm]
    rw [← List.append_assoc]
    rw [List.getElem?_append_right (by simp)]
    simp
  · -- working-set file source
    have hid : (ws.add_file nm bs).1 =
        E.files.length + ws.delta.files.length := by
      simp [StateWorkingSet.add_file, StateWorkingSet.num_files,
        StateDelta.num_files, EngineState.num_files, hperm]
      omega
    rw [hid]
    simp only [StateWorkingSet.add_file, StateWorkingSet.get_file_source,
      StateWorkingSet.filesList, hperm]
    rw [← List.append_assoc]
    rw [List.getElem?_append_right (by simp)]
    simp only [List.length_append, Nat.sub_self, List.getElem?_cons_zero]
    simp only [StateWorkingSet.get_span_contents, hperm]
    rw [if_pos hcursor]
    rw [hnss]
    exact findContents_last_exact E.next_span_start ws.delta.file_contents bs hdch
  · -- after commit
    intro E' hm
    obtain ⟨hfE, hcE, _, _, _⟩ := merge_delta_tables E _ E' hm
    have hid : (ws.add_file nm bs).1 =
        E.files.length + ws.delta.files.length := by
      simp [StateWorkingSet.add_file, StateWorkingSet.num_files,
        StateDelta.num_files, EngineState.num_files, hperm]
      omega
    have hrfiles : (ws.add_file nm bs).2.render.files =
        ws.delta.files ++ [(nm, ws.next_span_start, ws.next_span_start + bs.length)] := rfl
    have hrfc : (ws.add_file nm bs).2.render.file_contents =
        ws.delta.file_contents ++
          [(bs, ws.next_span_start, ws.next_span_start + bs.length)] := rfl
    constructor
    · rw [hid]
      simp only [EngineState.get_filename, hfE, hrfiles]
      rw [← List.append_assoc]
      rw [List.getElem?_append_right (by simp)]
      simp
    · rw [hid]
      simp only [EngineState.get_file_source, hfE, hrfiles]
      rw [← List.append_assoc]
      rw [List.getElem?_append_right (by simp)]
      simp only [List.length_append, Nat.sub_self, List.getElem?_cons_zero]
      simp only [EngineState.get_span_contents, hcE, hrfc]
      rw [hnss]
      have hDch : chainFrom E.next_span_start
          (ws.delta.file_contents ++
            [(bs, nextCursor E.next_span_start ws.delta.file_contents,
              nextCursor E.next_span_start ws.delta.file_contents + bs.length)]) = true :=
        chainFrom_append_one E.next_span_start ws.delta.file_contents bs hdch
      rw [findContents_perm_delta E.next_span_start _ _
        (fun e he => chainFrom_mem_end 0 E.file_contents hchain e he) hDch
        (by simp) _ (chainFrom_le E.next_span_start ws.delta.file_contents hdch)]
      exact findContents_last_exact E.next_span_start ws.delta.file_contents bs hdch

/-- C8 (witness): the round trip evaluated on a one-file permanent state and
a working set that already added one file. -/
theorem file_round_trip_witness :
    (engineWF E3 = true ∧
      (runOps (StateWorkingSet.new E3) [WsOp.opFile "w.nu" [7]]).permanent_state = E3 ∧
      chainFrom E3.next_span_start
        (runOps (StateWorkingSet.new E3) [WsOp.opFile "w.nu" [7]]).delta.file_contents = true) ∧
    ((runOps (StateWorkingSet.new E3) [WsOp.opFile "w.nu" [7]]).add_file "r.nu" [9]).2.get_filename
      (((runOps (StateWorkingSet.new E3) [WsOp.opFile "w.nu" [7]]).add_file "r.nu" [9]).1) = "r.nu" := by
  refine ⟨⟨by decide, rfl, by decide⟩, ?_⟩
  exact (file_round_trip E3 (runOps (StateWorkingSet.new E3) [WsOp.opFile "w.nu" [7]])
    "r.nu" [9] (by decide) rfl (by decide)).2.1.1

/-- C9 (counterexample): `exit_scope` on a delta whose scope stack is empty
silently does nothing — it neither fails nor changes the delta. -/
theorem exit_scope_empty_is_noop :
    emptyDelta.scope = [] ∧ emptyDelta.exit_scope = emptyDelta :=
  ⟨rfl, rfl⟩

/-- C9 (amended): `exit_scope` pops the top delta scope frame; with an empty
delta scope stack it is a silent no-op (`Vec::pop` of an empty vector), not a
failure. -/
theorem exit_scope_pop :
    (∀ (d : StateDelta) (f : ScopeFrame),
      StateDelta.exit_scope { d with scope := d.scope ++ [f] } = d) ∧
    (∀ d : StateDelta, d.exit_scope.scope = d.scope.dropLast) := by
  constructor
  · intro d f
    simp [StateDelta.exit_scope]
  · intro d
    rfl

/-- C9 (witness): the pop law and the no-op case evaluated on concrete
deltas. -/
theorem exit_scope_pop_witness :
    StateDelta.exit_scope { emptyDelta with scope := emptyDelta.scope ++ [ScopeFrame.new] } =
      emptyDelta ∧
    emptyDelta.exit_scope.scope = emptyDelta.scope.dropLast :=
  ⟨exit_scope_pop.1 emptyDelta ScopeFrame.new, exit_scope_pop.2 emptyDelta⟩

/-! ### merge and visibility interaction -/

theorem NMap.find?_union_left_none {α : Type} (hi lo : NMap α) (k : Bytes)
    (h : hi.find? k = none) : (NMap.union hi lo).find? k = lo.find? k := by
  simp only [NMap.union, NMap.find?] at h ⊢
  rw [h]

theorem merge_with_ids_of_none (v other : Visibility) (q : DeclId)
    (h : other.ids q = none) : (v.merge_with other).ids q = v.ids q := by
  simp only [Visibility.merge_with, h]

theorem new_append_ids (w : Visibility) (q : DeclId) :
    (Visibility.new.append w).ids q = w.ids q := rfl

/-- Replacing the innermost frame with one that resolves the name and judges
its visibility identically (on every id the remaining walk can consult)
leaves `findDeclPerm` unchanged. -/
theorem findDeclPerm_head_congr (n : Bytes) (vis : Visibility)
    (a a' : ScopeFrame) (rr : List ScopeFrame)
    (hdeq : a'.decls.find? n = a.decls.find? n)
    (hwag : ∀ i, a.decls.find? n = some i →
      (vis.append a'.visibility).ids i = (vis.append a.visibility).ids i)
    (hrest : ∀ j g, g ∈ rr → g.decls.find? n = some j →
      (vis.append a'.visibility).ids j = (vis.append a.visibility).ids j) :
    findDeclPerm n vis (a' :: rr) = findDeclPerm n vis (a :: rr) := by
  cases hd : a.decls.find? n with
  | some i =>
    simp only [findDeclPerm, hdeq, hd]
    have h1 := hwag i hd
    have hv : (vis.append a'.visibility).is_id_visible i =
        (vis.append a.visibility).is_id_visible i := by
      simp [Visibility.is_id_visible, h1]
    rw [hv]
    by_cases hvv : (vis.append a.visibility).is_id_visible i
    · rw [if_pos hvv, if_pos hvv]
    · rw [if_neg hvv, if_neg hvv]
      exact findDeclPerm_congr n rr _ _ (fun j g hg hgd => hrest j g hg hgd)
  | none =>
    simp only [findDeclPerm, hdeq, hd]
    exact findDeclPerm_congr n rr _ _ (fun j g hg hgd => hrest j g hg hgd)

/-- C10 (counterexample): committing a delta whose only frame binds `foo`
solely in `predecls` (with a visibility flip recorded by a prior
`hide_decl`) changes the permanent `find_decl`: `foo` resolved to 0 before
the merge and to nothing after it. -/
theorem merge_unpromoted_predecl_changes_resolution :
    wsPreHide.render.scope.map (fun f => (f.predecls.find? fooB, f.decls.find? fooB)) =
      [(some 1, none)] ∧
    Efoo.find_decl fooB = some 0 ∧
    EfooAfter.map (fun e => e.find_decl fooB) = some none := by
  decide

/-- C10 (amended): `merge_delta` transfers a frame's `decls`, `vars`,
`aliases`, `modules` and visibility but never its `predecls`, and the
pre-declared entry is still appended to the permanent decl table; provided
the frame's visibility overlay records nothing for any id that a permanent
frame binds to the pre-declared-only name, the permanent `find_decl` for
that name is unchanged by the merge. -/
theorem merge_delta_discards_predecls (E : EngineState) (d : StateDelta)
    (n : Bytes) (f : ScopeFrame) (rest : List ScopeFrame) (pid : DeclId)
    (hscope : d.scope = f :: rest)
    (hdeclsn : f.decls.find? n = none)
    (hpren : f.predecls.find? n = some pid)
    (hvis : ∀ fr ∈ E.scope, ∀ i, fr.decls.find? n = some i →
      f.visibility.ids i = none)
    (E' : EngineState) (hm : E.merge_delta d = some E') :
    E'.scope.map (fun fr => fr.predecls) = E.scope.map (fun fr => fr.predecls) ∧
    E'.decls = E.decls ++ d.decls ∧
    E'.find_decl n = E.find_decl n := by
  obtain ⟨hfE, hcE, hdE, hvE, hbE⟩ := merge_delta_tables E d E' hm
  rcases merge_delta_scope E d E' hm with ⟨htop, hsc⟩ | ⟨first, rest', hds, hsc⟩
  · refine ⟨by rw [hsc], hdE, ?_⟩
    unfold EngineState.find_decl
    rw [hsc]
  · have hfr : f :: rest = first :: rest' := by rw [← hscope, hds]
    have hffirst : first = f := by
      injection hfr with h1 h2
      exact h1.symm
    subst hffirst
    refine ⟨?_, hdE, ?_⟩
    · rw [hsc]
      exact map_modifyLast _ _ E.scope (fun x => rfl)
    · unfold EngineState.find_decl
      rw [hsc]
      cases hrev : E.scope.reverse with
      | nil =>
        rw [modifyLast_reverse, hrev]
      | cons a rr =>
        rw [modifyLast_reverse_cons _ _ a rr hrev]
        have hamem : a ∈ E.scope := by
          rw [← List.mem_reverse, hrev]
          exact List.mem_cons_self a rr
        apply findDeclPerm_head_congr
        · simp only [mergeScopeFrame]
          exact NMap.find?_union_left_none first.decls a.decls n hdeclsn
        · intro i hi
          rw [new_append_ids, new_append_ids]
          simp only [mergeScopeFrame]
          exact merge_with_ids_of_none a.visibility first.visibility i
            (hvis a hamem i hi)
        · intro j g hg hgd
          have hgmem : g ∈ E.scope := by
            rw [← List.mem_reverse, hrev]
            exact List.mem_cons_of_mem a hg
          rw [new_append_ids, new_append_ids]
          simp only [mergeScopeFrame]
          exact merge_with_ids_of_none a.visibility first.visibility j
            (hvis g hgmem j hgd)

/-- C10 (witness): the amended statement on a literal one-frame state and a
delta holding only an unpromoted pre-declaration with an empty visibility
overlay. -/
theorem merge_delta_discards_predecls_witness :
    (({ ScopeFrame.new with predecls := NMap.empty.insert fooB 1 } : ScopeFrame).decls.find? fooB = none ∧
      ({ ScopeFrame.new with predecls := NMap.empty.insert fooB 1 } : ScopeFrame).predecls.find? fooB = some 1) ∧
    (EfooLitPost.scope.map (fun fr => fr.predecls) = EfooLit.scope.map (fun fr => fr.predecls) ∧
      EfooLitPost.decls = EfooLit.decls ++ deltaPre.decls ∧
      EfooLitPost.find_decl fooB = EfooLit.find_decl fooB) := by
  refine ⟨⟨rfl, rfl⟩, ?_⟩
  refine merge_delta_discards_predecls EfooLit deltaPre fooB
    { ScopeFrame.new with predecls := NMap.empty.insert fooB 1 } [] 1 rfl rfl rfl
    ?_ EfooLitPost rfl
  intro fr hfr i hi
  cases hfr with
  | head =>
    have h0 : (0 : Nat) = i := Option.some.inj hi
    subst h0
    rfl
  | tail _ hf' => cases hf'
